import Mathlib

set_option linter.unusedVariables false

/-!
Verification development for the `automergeable` value-diffing library.

The repository's sources provide the conversion traits (`ToAutomerge` in
`automergeable-core/src/to.rs`), the derive machinery, and the quickcheck
test-suite exercising `diff_values`.  The diff algorithm itself is exercised
only through its tests, so it is modelled here from the specification
(`spec.md` sections 3, 4, 6 and 7), while the value model follows the shape
used throughout `src` (`automerge::Value` with `Map(HashMap, MapType)`,
`Sequence(Vec<Value>)`, `Text(Vec<char>)`, `Primitive(..)`).

Maps are embedded as association lists whose canonical well-formed
representatives have strictly sorted keys; this models the unordered
`HashMap` content (entry order is insignificant) while keeping every
definition executable.
-/

/-- Kind tag of a map node (`automerge::MapType` as used by src: `Map` is the
generic kind, `Table` the table kind). -/
inductive MapKind where
  | map
  | table
deriving DecidableEq, Repr

/-- Model of an IEEE floating-point payload.  The diff algorithm observes a
float only through IEEE equality, so the payload is either `nan` (unequal to
everything, including itself) or a finite value, modelled by an integer as in
the quickcheck generator (`i32::arbitrary(g) as f64`). -/
inductive FloatVal where
  | nan
  | fin (v : Int)
deriving DecidableEq, Repr

/-- Scalar values (`automerge::Primitive` as enumerated in
`src/automergeable/tests/quickcheck.rs` lines 12-23). The cursor payload is an
opaque identifier. -/
inductive Primitive where
  | str (s : String)
  | int (i : Int)
  | uint (u : Nat)
  | f64 (f : FloatVal)
  | f32 (f : FloatVal)
  | counter (c : Int)
  | timestamp (t : Int)
  | boolean (b : Bool)
  | cursor (c : Nat)
  | null
deriving DecidableEq, Repr

/-- The value tree (`automerge::Value` as used by src): maps with a kind tag,
sequences, text as a list of `char`s, and scalars.  A map is an association
list; its canonical well-formed representatives have strictly sorted keys. -/
inductive Value where
  | map (entries : List (String × Value)) (mk : MapKind)
  | sequence (l : List Value)
  | text (t : List Char)
  | primitive (p : Primitive)
deriving Repr

/-- Path element: a map key or a sequence index. -/
inductive PathElem where
  | key (k : String)
  | index (i : Nat)
deriving DecidableEq, Repr

/-- A path is the ordered list of keys/indices from the root to a target. -/
abbrev DiffPath := List PathElem

/-- Modelled from the spec: the edit-script operations of section 3 of the
spec (the concrete `LocalChange` type lives in the external `automerge`
crate and the emitting code in the missing `automergeable` diff module). -/
inductive Op where
  | setMapValue (p : DiffPath) (k : String) (v : Value)
  | removeMapKey (p : DiffPath) (k : String)
  | insertSequenceElement (p : DiffPath) (i : Nat) (v : Value)
  | removeSequenceElement (p : DiffPath) (i : Nat)
  | setTextRange (p : DiffPath) (a b : Nat) (cs : List Char)
  | incrementCounter (p : DiffPath) (d : Int)
  | setScalar (p : DiffPath) (v : Value)
deriving Repr

/-- Modelled from the spec: the error taxonomy of section 7 - the only error
is `Incompatible`. -/
inductive DiffError where
  | incompatible
deriving DecidableEq, Repr

/-- IEEE equality on the float model: `nan` is unequal to everything,
including itself. -/
def FloatVal.ieeeEq : FloatVal → FloatVal → Bool
  | .fin a, .fin b => a == b
  | _, _ => false

/-- Scalar equality as Rust `PartialEq` computes it: exact for strings,
integers, booleans, null and cursors, IEEE for floats. -/
def Primitive.peq : Primitive → Primitive → Bool
  | .str a, .str b => a == b
  | .int a, .int b => a == b
  | .uint a, .uint b => a == b
  | .f64 a, .f64 b => a.ieeeEq b
  | .f32 a, .f32 b => a.ieeeEq b
  | .counter a, .counter b => a == b
  | .timestamp a, .timestamp b => a == b
  | .boolean a, .boolean b => a == b
  | .cursor a, .cursor b => a == b
  | .null, .null => true
  | _, _ => false

mutual

/-- Deep structural equality of values as Rust `PartialEq` computes it
(floats by IEEE equality, so a value containing a NaN is unequal to itself).
On canonical (sorted-key) maps the pointwise entry comparison coincides with
the unordered `HashMap` equality. -/
def Value.veq : Value → Value → Bool
  | .map m1 k1, .map m2 k2 => k1 == k2 && Value.veqEntries m1 m2
  | .sequence l1, .sequence l2 => Value.veqList l1 l2
  | .text t1, .text t2 => t1 == t2
  | .primitive p1, .primitive p2 => p1.peq p2
  | _, _ => false

/-- Pointwise equality of map entry lists. -/
def Value.veqEntries : List (String × Value) → List (String × Value) → Bool
  | [], [] => true
  | (k1, v1) :: r1, (k2, v2) :: r2 => k1 == k2 && Value.veq v1 v2 && Value.veqEntries r1 r2
  | _, _ => false

/-- Pointwise equality of value lists. -/
def Value.veqList : List Value → List Value → Bool
  | [], [] => true
  | v1 :: r1, v2 :: r2 => Value.veq v1 v2 && Value.veqList r1 r2
  | _, _ => false

end

/-- `true` when the scalar is not a NaN float. -/
def Primitive.noNaNP : Primitive → Bool
  | .f64 .nan => false
  | .f32 .nan => false
  | _ => true

mutual

/-- `true` when no float anywhere in the value is NaN. -/
def Value.noNaN : Value → Bool
  | .map m _ => Value.noNaNEntries m
  | .sequence l => Value.noNaNList l
  | .text _ => true
  | .primitive p => p.noNaNP

def Value.noNaNEntries : List (String × Value) → Bool
  | [] => true
  | (_, v) :: r => Value.noNaN v && Value.noNaNEntries r

def Value.noNaNList : List Value → Bool
  | [] => true
  | v :: r => Value.noNaN v && Value.noNaNList r

end

mutual

/-- `true` when no cursor scalar occurs anywhere in the value. -/
def Value.cursorFree : Value → Bool
  | .map m _ => Value.cursorFreeEntries m
  | .sequence l => Value.cursorFreeList l
  | .text _ => true
  | .primitive (.cursor _) => false
  | .primitive _ => true

def Value.cursorFreeEntries : List (String × Value) → Bool
  | [] => true
  | (_, v) :: r => Value.cursorFree v && Value.cursorFreeEntries r

def Value.cursorFreeList : List Value → Bool
  | [] => true
  | v :: r => Value.cursorFree v && Value.cursorFreeList r

end

/-- Boolean strict lexicographic order on char lists, used as the
deterministic key order of the map differ. -/
def charListLt : List Char → List Char → Bool
  | [], [] => false
  | [], _ :: _ => true
  | _ :: _, [] => false
  | a :: as, b :: bs => decide (a < b) || (decide (a = b) && charListLt as bs)

/-- Deterministic strict order on map keys (lexicographic on the underlying
char list). -/
def keyLt (s1 s2 : String) : Bool := charListLt s1.data s2.data

/-- A strictly `keyLt`-increasing list of keys. -/
def strSorted : List String → Bool
  | [] => true
  | [_] => true
  | k1 :: k2 :: rest => keyLt k1 k2 && strSorted (k2 :: rest)

/-- Keys of an entry list are strictly sorted (hence distinct): the canonical
representation of the unordered `HashMap` content. -/
def keysSorted (m : List (String × Value)) : Bool :=
  strSorted (m.map Prod.fst)

mutual

/-- Well-formed (canonical) values: every map node has strictly sorted keys.
This is the spec's map invariant ("a Map never contains two entries with the
same key; entry order is insignificant") read on canonical representatives. -/
def Value.wf : Value → Bool
  | .map m _ => keysSorted m && Value.wfEntries m
  | .sequence l => Value.wfList l
  | .text _ => true
  | .primitive _ => true

def Value.wfEntries : List (String × Value) → Bool
  | [] => true
  | (_, v) :: r => Value.wf v && Value.wfEntries r

def Value.wfList : List Value → Bool
  | [] => true
  | v :: r => Value.wf v && Value.wfList r

end

/-- Lookup of a key in an entry list (first match, as `HashMap` lookup on the
canonical duplicate-free representation). -/
def lookupKey (k : String) : List (String × Value) → Option Value
  | [] => none
  | (k2, v) :: rest => if k == k2 then some v else lookupKey k rest

/-- `true` when the entry list binds the key. -/
def containsKey (k : String) (m : List (String × Value)) : Bool :=
  (lookupKey k m).isSome

/-- Prepend a path prefix to the target path of an operation. -/
def prependPath (p : DiffPath) : Op → Op
  | .setMapValue q k v => .setMapValue (p ++ q) k v
  | .removeMapKey q k => .removeMapKey (p ++ q) k
  | .insertSequenceElement q i v => .insertSequenceElement (p ++ q) i v
  | .removeSequenceElement q i => .removeSequenceElement (p ++ q) i
  | .setTextRange q a b cs => .setTextRange (p ++ q) a b cs
  | .incrementCounter q d => .incrementCounter (p ++ q) d
  | .setScalar q v => .setScalar (p ++ q) v

/-- Prepend a single path element to an operation's target path. -/
def prependElem (e : PathElem) : Op → Op := prependPath [e]

/-- Modelled from the spec: map-differ removals (spec 4.3) - keys present
only in `old` produce `RemoveMapKey`, in the (deterministic) order they occur
in the canonical old entry list. -/
def mapRemovals (m1 m2 : List (String × Value)) : List Op :=
  (m1.filter (fun e => !(containsKey e.1 m2))).map (fun e => Op.removeMapKey [] e.1)

/-- Modelled from the spec: sequence-differ removals (spec 4.4) - indices
only in `old` (index-aligned baseline: `n2 .. n1-1`), processed from highest
to lowest. -/
def seqRemovals (n1 n2 : Nat) : List Op :=
  ((List.range' n2 (n1 - n2)).reverse).map (fun i => Op.removeSequenceElement [] i)

/-- Modelled from the spec: sequence-differ insertions (spec 4.4) - indices
only in `new` (`n1 .. n2-1`), processed from lowest to highest, carrying the
new element. -/
def seqInsertions (n1 : Nat) (l2 : List Value) : List Op :=
  ((List.range' n1 (l2.length - n1)).zip (l2.drop n1)).map
    (fun iv => Op.insertSequenceElement [] iv.1 iv.2)

/-- Length of the common prefix of two char lists. -/
def commonPrefixLen : List Char → List Char → Nat
  | a :: as, b :: bs => if a = b then commonPrefixLen as bs + 1 else 0
  | _, _ => 0

/-- Modelled from the spec: the text differ (spec 4.4) - text is diffed at
the granularity of the elements of the `Text` vector; equal prefix/suffix
clusters are no-ops and the single unequal middle range is replaced with one
`SetTextRange`.  Only invoked on unequal texts. -/
def textDiff (t1 t2 : List Char) : List Op :=
  let a := commonPrefixLen t1 t2
  let s := commonPrefixLen (t1.drop a).reverse (t2.drop a).reverse
  [Op.setTextRange [] a (t1.length - s) ((t2.take (t2.length - s)).drop a)]

/-- Modelled from the spec: the scalar comparator (spec 4.2) - counter to
counter emits an increment with the numeric delta, cursor to cursor cannot be
expressed and is incompatible, every other combination of unequal scalars is
replaced wholesale.  Only invoked on unequal scalars. -/
def primDiff : Primitive → Primitive → Except DiffError (List Op)
  | .counter a, .counter b => .ok [.incrementCounter [] (b - a)]
  | .cursor _, .cursor _ => .error .incompatible
  | _, p2 => .ok [.setScalar [] (.primitive p2)]

mutual

/-- Modelled from the spec: the diff dispatcher (spec 4.1) of the missing
`diff_values` module, producing operations with paths relative to the node
being diffed.  Equal values (Rust `PartialEq`, IEEE on floats) are a no-op;
same-kind nodes delegate to the matching differ; a kind mismatch (including a
`Map` kind-tag mismatch) is a single wholesale replacement. -/
def diffR : Value → Value → Except DiffError (List Op)
  | old, new =>
    if Value.veq old new then .ok []
    else
      match old, new with
      | .map m1 k1, .map m2 k2 =>
        if k1 == k2 then
          match diffREntries m1 m2 with
          | .error e => .error e
          | .ok ops => .ok (mapRemovals m1 m2 ++ ops)
        else .ok [.setScalar [] (.map m2 k2)]
      | .sequence l1, .sequence l2 =>
        match diffRSeq l1 l2 0 with
        | .error e => .error e
        | .ok ops =>
          .ok (seqRemovals l1.length l2.length ++ seqInsertions l1.length l2 ++ ops)
      | .text t1, .text t2 => .ok (textDiff t1 t2)
      | .primitive p1, .primitive p2 => primDiff p1 p2
      | _, new => .ok [.setScalar [] new]

/-- Modelled from the spec: map-differ insertions and modifications (spec
4.3), iterating the new entries in their (deterministic, canonical) order:
keys absent from `old` are set wholesale, keys present in both are diffed
recursively at `path + key`; a recursive error propagates unchanged. -/
def diffREntries : List (String × Value) → List (String × Value) → Except DiffError (List Op)
  | _, [] => .ok []
  | m1, (k, v2) :: rest =>
    match
      (match lookupKey k m1 with
       | none => Except.ok [Op.setMapValue [] k v2]
       | some v1 =>
         match diffR v1 v2 with
         | .error e => .error e
         | .ok ops => .ok (ops.map (prependElem (.key k)))) with
    | .error e => .error e
    | .ok ops1 =>
      match diffREntries m1 rest with
      | .error e => .error e
      | .ok ops2 => .ok (ops1 ++ ops2)

/-- Modelled from the spec: recursive diffs of index-aligned matched sequence
positions (spec 4.4), at `path + index`; a recursive error propagates
unchanged. -/
def diffRSeq : List Value → List Value → Nat → Except DiffError (List Op)
  | _, [], _ => .ok []
  | [], _ :: _, _ => .ok []
  | v1 :: r1, v2 :: r2, i =>
    match diffR v1 v2 with
    | .error e => .error e
    | .ok ops =>
      match diffRSeq r1 r2 (i + 1) with
      | .error e => .error e
      | .ok more => .ok (ops.map (prependElem (.index i)) ++ more)

end

/-- Modelled from the spec: the diff entry point (spec 4.1)
`diff(old, new, path)`, emitting path-qualified operations. -/
def diff (old new : Value) (p : DiffPath) : Except DiffError (List Op) :=
  match diffR old new with
  | .error e => .error e
  | .ok ops => .ok (ops.map (prependPath p))

/-- Replace the value bound at key `k`, keeping its position. -/
def setEntry (m : List (String × Value)) (k : String) (v : Value) : List (String × Value) :=
  m.map (fun e => if e.1 == k then (e.1, v) else e)

/-- Insert (or overwrite) a binding, keeping the canonical sorted key order. -/
def insertEntry (k : String) (v : Value) : List (String × Value) → List (String × Value)
  | [] => [(k, v)]
  | (k2, v2) :: rest =>
    if k == k2 then (k, v) :: rest
    else if keyLt k k2 then (k, v) :: (k2, v2) :: rest
    else (k2, v2) :: insertEntry k v rest

/-- Remove every binding of key `k`. -/
def removeEntry (k : String) (m : List (String × Value)) : List (String × Value) :=
  m.filter (fun e => !(e.1 == k))

/-- Modelled from the spec: path navigation of the Replication Engine's
"apply local change" capability (spec section 6) - follow the path to the
target node and rewrite it, failing when the path does not resolve. -/
def modifyAt : Value → DiffPath → (Value → Option Value) → Option Value
  | v, [], f => f v
  | .map m mk, .key k :: rest, f =>
    match lookupKey k m with
    | none => none
    | some v =>
      match modifyAt v rest f with
      | none => none
      | some v2 => some (.map (setEntry m k v2) mk)
  | .sequence l, .index i :: rest, f =>
    match l[i]? with
    | none => none
    | some v =>
      match modifyAt v rest f with
      | none => none
      | some v2 => some (.sequence (l.set i v2))
  | _, _, _ => none

/-- Modelled from the spec: the documented effect of a single operation
(spec sections 3 and 6), applied to a document value. -/
def applyOp (root : Value) : Op → Option Value
  | .setMapValue p k v =>
    modifyAt root p (fun cur =>
      match cur with
      | .map m mk => some (.map (insertEntry k v m) mk)
      | _ => none)
  | .removeMapKey p k =>
    modifyAt root p (fun cur =>
      match cur with
      | .map m mk => some (.map (removeEntry k m) mk)
      | _ => none)
  | .insertSequenceElement p i v =>
    modifyAt root p (fun cur =>
      match cur with
      | .sequence l => if i ≤ l.length then some (.sequence (l.insertIdx i v)) else none
      | _ => none)
  | .removeSequenceElement p i =>
    modifyAt root p (fun cur =>
      match cur with
      | .sequence l => if i < l.length then some (.sequence (l.eraseIdx i)) else none
      | _ => none)
  | .setTextRange p a b cs =>
    modifyAt root p (fun cur =>
      match cur with
      | .text t =>
        if a ≤ b ∧ b ≤ t.length then some (.text (t.take a ++ cs ++ t.drop b)) else none
      | _ => none)
  | .incrementCounter p d =>
    modifyAt root p (fun cur =>
      match cur with
      | .primitive (.counter c) => some (.primitive (.counter (c + d)))
      | _ => none)
  | .setScalar p v => modifyAt root p (fun _ => some v)

/-- Modelled from the spec: replaying an edit script in order against a
document value (spec section 4.5 and 6). -/
def applyOps (root : Value) (ops : List Op) : Option Value :=
  ops.foldlM applyOp root

theorem FloatVal.ieeeEq_eq : ∀ (a b : FloatVal), FloatVal.ieeeEq a b = true → a = b := by
  intro a b h
  cases a <;> cases b <;> simp_all [FloatVal.ieeeEq]

theorem Primitive.peq_eq : ∀ (a b : Primitive), Primitive.peq a b = true → a = b := by
  intro a b h
  cases a <;> cases b <;> simp_all [Primitive.peq] <;>
    exact FloatVal.ieeeEq_eq _ _ h

mutual

theorem Value.veq_eq : ∀ (a b : Value), Value.veq a b = true → a = b
  | .map m1 k1, b, h => by
    cases b with
    | map m2 k2 =>
      simp only [Value.veq, Bool.and_eq_true, beq_iff_eq] at h
      obtain ⟨hk, he⟩ := h
      rw [hk, Value.veqEntries_eq m1 m2 he]
    | sequence l2 => exact absurd h (by simp [Value.veq])
    | text t2 => exact absurd h (by simp [Value.veq])
    | primitive p2 => exact absurd h (by simp [Value.veq])
  | .sequence l1, b, h => by
    cases b with
    | sequence l2 =>
      simp only [Value.veq] at h
      rw [Value.veqList_eq l1 l2 h]
    | map m2 k2 => exact absurd h (by simp [Value.veq])
    | text t2 => exact absurd h (by simp [Value.veq])
    | primitive p2 => exact absurd h (by simp [Value.veq])
  | .text t1, b, h => by
    cases b with
    | text t2 =>
      simp only [Value.veq, beq_iff_eq] at h
      rw [h]
    | map m2 k2 => exact absurd h (by simp [Value.veq])
    | sequence l2 => exact absurd h (by simp [Value.veq])
    | primitive p2 => exact absurd h (by simp [Value.veq])
  | .primitive p1, b, h => by
    cases b with
    | primitive p2 =>
      simp only [Value.veq] at h
      rw [Primitive.peq_eq p1 p2 h]
    | map m2 k2 => exact absurd h (by simp [Value.veq])
    | sequence l2 => exact absurd h (by simp [Value.veq])
    | text t2 => exact absurd h (by simp [Value.veq])

theorem Value.veqEntries_eq : ∀ (m1 m2 : List (String × Value)),
    Value.veqEntries m1 m2 = true → m1 = m2
  | [], [], _ => rfl
  | (k1, v1) :: r1, (k2, v2) :: r2, h => by
    simp only [Value.veqEntries, Bool.and_eq_true, beq_iff_eq] at h
    obtain ⟨⟨hk, hv⟩, hr⟩ := h
    rw [hk, Value.veq_eq v1 v2 hv, Value.veqEntries_eq r1 r2 hr]
  | [], (_, _) :: _, h => by simp [Value.veqEntries] at h
  | (_, _) :: _, [], h => by simp [Value.veqEntries] at h

theorem Value.veqList_eq : ∀ (l1 l2 : List Value), Value.veqList l1 l2 = true → l1 = l2
  | [], [], _ => rfl
  | v1 :: r1, v2 :: r2, h => by
    simp only [Value.veqList, Bool.and_eq_true] at h
    obtain ⟨hv, hr⟩ := h
    rw [Value.veq_eq v1 v2 hv, Value.veqList_eq r1 r2 hr]
  | [], _ :: _, h => by simp [Value.veqList] at h
  | _ :: _, [], h => by simp [Value.veqList] at h

end

theorem Primitive.peq_refl : ∀ (p : Primitive),
    Primitive.noNaNP p = true → Primitive.peq p p = true := by
  intro p h
  cases p <;> try simp [Primitive.peq]
  all_goals
    (rename_i f; cases f <;> simp_all [Primitive.noNaNP, Primitive.peq, FloatVal.ieeeEq])

mutual

theorem Value.veq_refl : ∀ (v : Value), Value.noNaN v = true → Value.veq v v = true
  | .map m mk, h => by
    simp only [Value.noNaN] at h
    simp only [Value.veq, Bool.and_eq_true, beq_self_eq_true, true_and]
    exact Value.veqEntries_refl m h
  | .sequence l, h => by
    simp only [Value.noNaN] at h
    simpa only [Value.veq] using Value.veqList_refl l h
  | .text t, _ => by simp [Value.veq]
  | .primitive p, h => by
    simp only [Value.noNaN] at h
    simpa only [Value.veq] using Primitive.peq_refl p h

theorem Value.veqEntries_refl : ∀ (m : List (String × Value)),
    Value.noNaNEntries m = true → Value.veqEntries m m = true
  | [], _ => rfl
  | (k, v) :: r, h => by
    simp only [Value.noNaNEntries, Bool.and_eq_true] at h
    simp only [Value.veqEntries, Bool.and_eq_true, beq_self_eq_true, true_and]
    exact ⟨Value.veq_refl v h.1, Value.veqEntries_refl r h.2⟩

theorem Value.veqList_refl : ∀ (l : List Value),
    Value.noNaNList l = true → Value.veqList l l = true
  | [], _ => rfl
  | v :: r, h => by
    simp only [Value.noNaNList, Bool.and_eq_true] at h
    simp only [Value.veqList, Bool.and_eq_true]
    exact ⟨Value.veq_refl v h.1, Value.veqList_refl r h.2⟩

end

theorem lookupKey_cons (k k2 : String) (v : Value) (rest : List (String × Value)) :
    lookupKey k ((k2, v) :: rest) = if k = k2 then some v else lookupKey k rest := by
  simp only [lookupKey]
  by_cases h : k = k2 <;> simp [h]

theorem setEntry_cons (e : String × Value) (rest : List (String × Value)) (k : String) (v : Value) :
    setEntry (e :: rest) k v = (if e.1 = k then (e.1, v) else e) :: setEntry rest k v := by
  simp only [setEntry, List.map_cons]
  by_cases h : e.1 = k <;> simp [h]

theorem lookupKey_mem : ∀ {k : String} {m : List (String × Value)} {v : Value},
    lookupKey k m = some v → (k, v) ∈ m := by
  intro k m v h
  induction m with
  | nil => simp [lookupKey] at h
  | cons e rest ih =>
    obtain ⟨k2, v2⟩ := e
    rw [lookupKey_cons] at h
    by_cases hk : k = k2
    · rw [if_pos hk] at h
      cases h
      subst hk
      exact List.mem_cons_self _ _
    · rw [if_neg hk] at h
      exact List.mem_cons_of_mem _ (ih h)

theorem containsKey_eq_false : ∀ {k : String} {m : List (String × Value)},
    containsKey k m = false ↔ lookupKey k m = none := by
  intro k m
  cases h : lookupKey k m <;> simp [containsKey, h]

theorem prependPath_nil : ∀ (op : Op), prependPath [] op = op := by
  intro op
  cases op <;> rfl

theorem map_prependPath_nil : ∀ (ops : List Op), ops.map (prependPath []) = ops := by
  intro ops
  have h : prependPath [] = id := funext prependPath_nil
  rw [h, List.map_id]

theorem applyOps_nil : ∀ (v : Value), applyOps v [] = some v := by
  intro v
  rfl

theorem applyOps_cons : ∀ (v : Value) (op : Op) (ops : List Op),
    applyOps v (op :: ops) =
      match applyOp v op with
      | none => none
      | some w => applyOps w ops := by
  intro v op ops
  simp only [applyOps, List.foldlM]
  cases applyOp v op <;> rfl

theorem applyOps_cons_some : ∀ {v w : Value} {op : Op} (ops : List Op),
    applyOp v op = some w → applyOps v (op :: ops) = applyOps w ops := by
  intro v w op ops h
  rw [applyOps_cons, h]

theorem applyOps_cons_none : ∀ {v : Value} {op : Op} (ops : List Op),
    applyOp v op = none → applyOps v (op :: ops) = none := by
  intro v op ops h
  rw [applyOps_cons, h]

theorem applyOps_append : ∀ (v : Value) (a b : List Op),
    applyOps v (a ++ b) =
      match applyOps v a with
      | none => none
      | some w => applyOps w b := by
  intro v a b
  induction a generalizing v with
  | nil => simp [applyOps_nil]
  | cons op rest ih =>
    rw [List.cons_append, applyOps_cons, applyOps_cons]
    cases applyOp v op with
    | none => rfl
    | some w => exact ih w

/-- Keys are untouched by `setEntry`. -/
theorem setEntry_keys : ∀ (m : List (String × Value)) (k : String) (v : Value),
    (setEntry m k v).map Prod.fst = m.map Prod.fst := by
  intro m k v
  induction m with
  | nil => rfl
  | cons e rest ih =>
    rw [setEntry_cons, List.map_cons, List.map_cons, ih]
    by_cases h : e.1 = k <;> simp [h]

theorem lookupKey_setEntry_self : ∀ {m : List (String × Value)} {k : String} {v w : Value},
    lookupKey k m = some v → lookupKey k (setEntry m k w) = some w := by
  intro m k v w h
  induction m with
  | nil => simp [lookupKey] at h
  | cons e rest ih =>
    obtain ⟨k2, v2⟩ := e
    rw [lookupKey_cons] at h
    rw [setEntry_cons]
    by_cases hk : k = k2
    · subst hk
      rw [if_pos rfl]
      rw [show ((k, v2).1, w) = (k, w) from rfl, lookupKey_cons, if_pos rfl]
    · rw [if_neg (by simpa using fun he => hk he.symm)]
      rw [lookupKey_cons, if_neg hk]
      rw [if_neg hk] at h
      exact ih h

theorem lookupKey_setEntry_other : ∀ (m : List (String × Value)) {j k : String} (w : Value),
    j ≠ k → lookupKey j (setEntry m k w) = lookupKey j m := by
  intro m j k w hne
  induction m with
  | nil => rfl
  | cons e rest ih =>
    obtain ⟨k2, v2⟩ := e
    rw [setEntry_cons, lookupKey_cons]
    by_cases hk : k2 = k
    · rw [if_pos hk]
      rw [show ((k2, v2).1, w) = (k2, w) from rfl]
      have : ¬ j = k2 := fun he => hne (he.trans hk)
      rw [if_neg this, lookupKey_cons, if_neg this, ih]
    · rw [if_neg hk]
      by_cases hj : j = k2
      · rw [lookupKey_cons, if_pos hj, if_pos hj]
      · rw [lookupKey_cons, if_neg hj, if_neg hj, ih]

theorem setEntry_setEntry : ∀ (m : List (String × Value)) (k : String) (a b : Value),
    setEntry (setEntry m k a) k b = setEntry m k b := by
  intro m k a b
  induction m with
  | nil => rfl
  | cons e rest ih =>
    rw [setEntry_cons, setEntry_cons, setEntry_cons, ih]
    by_cases h : e.1 = k
    · simp [h]
    · simp [h]

theorem setEntry_of_not_contains : ∀ (m : List (String × Value)) (k : String) (v : Value),
    lookupKey k m = none → setEntry m k v = m := by
  intro m k v h
  induction m with
  | nil => rfl
  | cons e rest ih =>
    obtain ⟨k2, v2⟩ := e
    rw [lookupKey_cons] at h
    by_cases hk : k = k2
    · rw [if_pos hk] at h
      cases h
    · rw [if_neg hk] at h
      rw [setEntry_cons, if_neg (by simpa using fun he => hk he.symm), ih h]

theorem setEntry_self_of_nodup : ∀ {m : List (String × Value)} {k : String} {v : Value},
    (m.map Prod.fst).Nodup → lookupKey k m = some v → setEntry m k v = m := by
  intro m k v hnd h
  induction m with
  | nil => rfl
  | cons e rest ih =>
    obtain ⟨k2, v2⟩ := e
    simp only [List.map_cons, List.nodup_cons] at hnd
    rw [lookupKey_cons] at h
    rw [setEntry_cons]
    by_cases hk : k = k2
    · rw [if_pos hk] at h
      cases h
      subst hk
      rw [if_pos rfl]
      have hnone : lookupKey k rest = none := by
        cases hl : lookupKey k rest with
        | none => rfl
        | some w => exact absurd (List.mem_map_of_mem Prod.fst (lookupKey_mem hl)) hnd.1
      rw [setEntry_of_not_contains rest k v hnone]
    · rw [if_neg hk] at h
      rw [if_neg (by simpa using fun he => hk he.symm), ih hnd.2 h]

theorem List.set_getElem_self : ∀ {l : List Value} {i : Nat} {v : Value},
    l[i]? = some v → l.set i v = l := by
  intro l
  induction l with
  | nil => intro i v h; simp at h
  | cons a rest ih =>
    intro i v h
    cases i with
    | zero =>
      simp only [List.getElem?_cons_zero, Option.some_inj] at h
      rw [h]
      rfl
    | succ n =>
      simp only [List.getElem?_cons_succ] at h
      simp [List.set_cons_succ, ih h]

theorem modifyAt_key {m : List (String × Value)} {k : String} {v : Value} (mk : MapKind)
    (q : DiffPath) (f : Value → Option Value) (h : lookupKey k m = some v) :
    modifyAt (.map m mk) (.key k :: q) f =
      (modifyAt v q f).map (fun w => .map (setEntry m k w) mk) := by
  simp only [modifyAt, h]
  cases modifyAt v q f <;> rfl

theorem modifyAt_index {l : List Value} {i : Nat} {v : Value}
    (q : DiffPath) (f : Value → Option Value) (h : l[i]? = some v) :
    modifyAt (.sequence l) (.index i :: q) f =
      (modifyAt v q f).map (fun w => .sequence (l.set i w)) := by
  simp only [modifyAt, h]
  cases modifyAt v q f <;> rfl

theorem applyOp_key_shift {m : List (String × Value)} {k : String} {v : Value} (mk : MapKind)
    (op : Op) (h : lookupKey k m = some v) :
    applyOp (.map m mk) (prependElem (.key k) op) =
      (applyOp v op).map (fun w => .map (setEntry m k w) mk) := by
  cases op <;>
    simp only [applyOp, prependElem, prependPath, List.singleton_append] <;>
    exact modifyAt_key mk _ _ h

theorem applyOp_index_shift {l : List Value} {i : Nat} {v : Value}
    (op : Op) (h : l[i]? = some v) :
    applyOp (.sequence l) (prependElem (.index i) op) =
      (applyOp v op).map (fun w => .sequence (l.set i w)) := by
  cases op <;>
    simp only [applyOp, prependElem, prependPath, List.singleton_append] <;>
    exact modifyAt_index _ _ h

theorem applyOps_key_shift : ∀ (ops : List Op) {m : List (String × Value)}
    {k : String} {v w : Value} (mk : MapKind),
    (m.map Prod.fst).Nodup → lookupKey k m = some v → applyOps v ops = some w →
    applyOps (.map m mk) (ops.map (prependElem (.key k))) = some (.map (setEntry m k w) mk) := by
  intro ops
  induction ops with
  | nil =>
    intro m k v w mk hnd hl hap
    rw [applyOps_nil] at hap
    cases hap
    rw [List.map_nil, applyOps_nil, setEntry_self_of_nodup hnd hl]
  | cons op rest ih =>
    intro m k v w mk hnd hl hap
    rw [applyOps_cons] at hap
    rw [List.map_cons, applyOps_cons, applyOp_key_shift mk op hl]
    cases hstep : applyOp v op with
    | none => rw [hstep] at hap; cases hap
    | some w1 =>
      rw [hstep] at hap
      simp only [Option.map_some']
      have hnd2 : ((setEntry m k w1).map Prod.fst).Nodup := by
        rw [setEntry_keys]; exact hnd
      have hl2 : lookupKey k (setEntry m k w1) = some w1 := lookupKey_setEntry_self hl
      have := ih mk hnd2 hl2 hap
      rw [setEntry_setEntry] at this
      exact this

theorem applyOps_index_shift : ∀ (ops : List Op) {l : List Value}
    {i : Nat} {v w : Value},
    l[i]? = some v → applyOps v ops = some w →
    applyOps (.sequence l) (ops.map (prependElem (.index i))) = some (.sequence (l.set i w)) := by
  intro ops
  induction ops with
  | nil =>
    intro l i v w hl hap
    rw [applyOps_nil] at hap
    cases hap
    rw [List.map_nil, applyOps_nil, List.set_getElem_self hl]
  | cons op rest ih =>
    intro l i v w hl hap
    rw [applyOps_cons] at hap
    rw [List.map_cons, applyOps_cons, applyOp_index_shift op hl]
    cases hstep : applyOp v op with
    | none => rw [hstep] at hap; cases hap
    | some w1 =>
      rw [hstep] at hap
      simp only [Option.map_some']
      have hlen : i < l.length := by
        rcases List.getElem?_eq_some.mp hl with ⟨hlt, _⟩
        exact hlt
      have hl2 : (l.set i w1)[i]? = some w1 := List.getElem?_set_self hlen
      have := ih hl2 hap
      rw [List.set_set] at this
      exact this

theorem charListLt_irrefl : ∀ (l : List Char), charListLt l l = false := by
  intro l
  induction l with
  | nil => rfl
  | cons a as ih => simp [charListLt, ih, lt_irrefl]

theorem charListLt_trans : ∀ {a b c : List Char},
    charListLt a b = true → charListLt b c = true → charListLt a c = true := by
  intro a
  induction a with
  | nil =>
    intro b c hab hbc
    cases b with
    | nil => simp [charListLt] at hab
    | cons y ys =>
      cases c with
      | nil => simp [charListLt] at hbc
      | cons z zs => simp [charListLt]
  | cons x xs ih =>
    intro b c hab hbc
    cases b with
    | nil => simp [charListLt] at hab
    | cons y ys =>
      cases c with
      | nil => simp [charListLt] at hbc
      | cons z zs =>
        simp only [charListLt, Bool.or_eq_true, Bool.and_eq_true, decide_eq_true_eq] at *
        rcases hab with h1 | ⟨he1, h1⟩ <;> rcases hbc with h2 | ⟨he2, h2⟩
        · exact Or.inl (lt_trans h1 h2)
        · exact Or.inl (he2 ▸ h1)
        · exact Or.inl (he1 ▸ h2)
        · exact Or.inr ⟨he1.trans he2, ih h1 h2⟩

theorem charListLt_conn : ∀ {a b : List Char},
    charListLt a b = false → charListLt b a = false → a = b := by
  intro a
  induction a with
  | nil =>
    intro b hab hba
    cases b with
    | nil => rfl
    | cons y ys => simp [charListLt] at hab
  | cons x xs ih =>
    intro b hab hba
    cases b with
    | nil => simp [charListLt] at hba
    | cons y ys =>
      simp only [charListLt, Bool.or_eq_false_iff, Bool.and_eq_false_iff,
        decide_eq_false_iff_not] at hab hba
      obtain ⟨hxy, hab2⟩ := hab
      obtain ⟨hyx, hba2⟩ := hba
      have hxey : x = y := by
        rcases lt_trichotomy x y with h | h | h
        · exact absurd h hxy
        · exact h
        · exact absurd h hyx
      subst hxey
      rcases hab2 with h | h
      · exact absurd rfl h
      · rcases hba2 with h2 | h2
        · exact absurd rfl h2
        · rw [ih h h2]

theorem keyLt_irrefl : ∀ (k : String), keyLt k k = false := by
  intro k
  exact charListLt_irrefl k.data

theorem keyLt_trans : ∀ {a b c : String},
    keyLt a b = true → keyLt b c = true → keyLt a c = true := by
  intro a b c hab hbc
  exact charListLt_trans hab hbc

theorem keyLt_conn : ∀ {a b : String},
    keyLt a b = false → keyLt b a = false → a = b := by
  intro a b hab hba
  exact String.ext (charListLt_conn hab hba)

theorem keyLt_asymm : ∀ {a b : String}, keyLt a b = true → keyLt b a = false := by
  intro a b hab
  cases h : keyLt b a with
  | false => rfl
  | true =>
    have := keyLt_trans hab h
    rw [keyLt_irrefl] at this
    cases this

theorem keyLt_ne : ∀ {a b : String}, keyLt a b = true → a ≠ b := by
  intro a b hab he
  subst he
  rw [keyLt_irrefl] at hab
  cases hab

theorem strSorted_cons : ∀ {k : String} {ks : List String},
    strSorted (k :: ks) = true → strSorted ks = true ∧ ∀ j ∈ ks, keyLt k j = true := by
  intro k ks
  induction ks generalizing k with
  | nil => intro _; exact ⟨rfl, by simp⟩
  | cons k2 rest ih =>
    intro h
    simp only [strSorted, Bool.and_eq_true] at h
    obtain ⟨hk, hrest⟩ := h
    obtain ⟨hs, hall⟩ := ih hrest
    refine ⟨hrest, ?_⟩
    intro j hj
    rcases List.mem_cons.mp hj with he | hm
    · rw [he]; exact hk
    · exact keyLt_trans hk (hall j hm)

theorem strSorted_nodup : ∀ {ks : List String}, strSorted ks = true → ks.Nodup := by
  intro ks
  induction ks with
  | nil => intro _; exact List.nodup_nil
  | cons k rest ih =>
    intro h
    obtain ⟨hs, hall⟩ := strSorted_cons h
    exact List.nodup_cons.mpr ⟨fun hm => keyLt_ne (hall k hm) rfl, ih hs⟩

theorem lookupKey_eq_none_of_not_mem : ∀ {k : String} {m : List (String × Value)},
    k ∉ m.map Prod.fst → lookupKey k m = none := by
  intro k m h
  induction m with
  | nil => rfl
  | cons e rest ih =>
    obtain ⟨k2, v2⟩ := e
    simp only [List.map_cons, List.mem_cons, not_or] at h
    rw [lookupKey_cons, if_neg h.1, ih h.2]

theorem keysSorted_cons : ∀ {e : String × Value} {m : List (String × Value)},
    keysSorted (e :: m) = true →
    keysSorted m = true ∧ ∀ j ∈ m.map Prod.fst, keyLt e.1 j = true := by
  intro e m h
  simp only [keysSorted, List.map_cons] at h
  obtain ⟨hs, hall⟩ := strSorted_cons h
  exact ⟨hs, hall⟩

theorem keysSorted_nodup : ∀ {m : List (String × Value)},
    keysSorted m = true → (m.map Prod.fst).Nodup := by
  intro m h
  exact strSorted_nodup h

/-- Two sorted entry lists with the same lookups are equal. -/
theorem sorted_lookup_ext : ∀ {m1 m2 : List (String × Value)},
    keysSorted m1 = true → keysSorted m2 = true →
    (∀ j, lookupKey j m1 = lookupKey j m2) → m1 = m2 := by
  intro m1
  induction m1 with
  | nil =>
    intro m2 _ hs2 h
    cases m2 with
    | nil => rfl
    | cons e rest =>
      obtain ⟨k2, v2⟩ := e
      have := h k2
      rw [lookupKey_cons, if_pos rfl] at this
      simp [lookupKey] at this
  | cons e r1 ih =>
    intro m2 hs1 hs2 h
    obtain ⟨k1, v1⟩ := e
    cases m2 with
    | nil =>
      have := h k1
      rw [lookupKey_cons, if_pos rfl] at this
      simp [lookupKey] at this
    | cons e2 r2 =>
      obtain ⟨k2, v2⟩ := e2
      obtain ⟨hs1r, hall1⟩ := keysSorted_cons hs1
      obtain ⟨hs2r, hall2⟩ := keysSorted_cons hs2
      have hkeq : k1 = k2 := by
        by_contra hne
        have h1 : lookupKey k1 ((k2, v2) :: r2) = some v1 := by
          rw [← h k1, lookupKey_cons, if_pos rfl]
        rw [lookupKey_cons, if_neg hne] at h1
        have hm1 : k1 ∈ r2.map Prod.fst := List.mem_map_of_mem Prod.fst (lookupKey_mem h1)
        have h2 : lookupKey k2 ((k1, v1) :: r1) = some v2 := by
          rw [h k2, lookupKey_cons, if_pos rfl]
        rw [lookupKey_cons, if_neg (fun he => hne he.symm)] at h2
        have hm2 : k2 ∈ r1.map Prod.fst := List.mem_map_of_mem Prod.fst (lookupKey_mem h2)
        have hlt1 : keyLt k2 k1 = true := hall2 k1 hm1
        have hlt2 : keyLt k1 k2 = true := hall1 k2 hm2
        rw [keyLt_asymm hlt2] at hlt1
        cases hlt1
      subst hkeq
      have hveq : v1 = v2 := by
        have := h k1
        rw [lookupKey_cons, if_pos rfl, lookupKey_cons, if_pos rfl] at this
        exact Option.some_inj.mp this
      subst hveq
      congr 1
      apply ih hs1r hs2r
      intro j
      by_cases hj : j = k1
      · subst hj
        have hn1 : lookupKey j r1 = none :=
          lookupKey_eq_none_of_not_mem (fun hm => keyLt_ne (hall1 j hm) rfl)
        have hn2 : lookupKey j r2 = none :=
          lookupKey_eq_none_of_not_mem (fun hm => keyLt_ne (hall2 j hm) rfl)
        rw [hn1, hn2]
      · have := h j
        rw [lookupKey_cons, if_neg hj, lookupKey_cons, if_neg hj] at this
        exact this

theorem strSorted_cons_of : ∀ {k : String} {ks : List String},
    strSorted ks = true → (∀ j ∈ ks, keyLt k j = true) → strSorted (k :: ks) = true := by
  intro k ks hs hall
  cases ks with
  | nil => rfl
  | cons k2 rest =>
    simp only [strSorted, Bool.and_eq_true]
    exact ⟨hall k2 (List.mem_cons_self _ _), hs⟩

theorem insertEntry_cons (k : String) (v : Value) (k2 : String) (v2 : Value)
    (rest : List (String × Value)) :
    insertEntry k v ((k2, v2) :: rest) =
      if k = k2 then (k, v) :: rest
      else if keyLt k k2 = true then (k, v) :: (k2, v2) :: rest
      else (k2, v2) :: insertEntry k v rest := by
  simp only [insertEntry]
  by_cases h : k = k2
  · simp [h]
  · simp only [if_neg h]
    have hb : (k == k2) = false := by simpa using h
    rw [hb]
    simp

theorem mem_keys_insertEntry : ∀ {j k : String} {v : Value} {m : List (String × Value)},
    j ∈ (insertEntry k v m).map Prod.fst ↔ j = k ∨ j ∈ m.map Prod.fst := by
  intro j k v m
  induction m with
  | nil => simp [insertEntry]
  | cons e rest ih =>
    obtain ⟨k2, v2⟩ := e
    rw [insertEntry_cons]
    by_cases h : k = k2
    · subst h
      rw [if_pos rfl]
      simp only [List.map_cons, List.mem_cons]
      tauto
    · rw [if_neg h]
      cases hlt : keyLt k k2 with
      | true =>
        rw [if_pos rfl]
        simp only [List.map_cons, List.mem_cons]
        try tauto
      | false =>
        rw [if_neg (by simp)]
        simp only [List.map_cons, List.mem_cons, ih]
        try tauto

theorem keysSorted_insertEntry : ∀ {m : List (String × Value)} (k : String) (v : Value),
    keysSorted m = true → keysSorted (insertEntry k v m) = true := by
  intro m
  induction m with
  | nil => intro k v _; rfl
  | cons e rest ih =>
    intro k v hs
    obtain ⟨k2, v2⟩ := e
    obtain ⟨hsr, hall⟩ := keysSorted_cons hs
    rw [insertEntry_cons]
    by_cases h : k = k2
    · subst h
      rw [if_pos rfl]
      simp only [keysSorted, List.map_cons]
      apply strSorted_cons_of
      · exact hsr
      · exact hall
    · rw [if_neg h]
      cases hlt : keyLt k k2 with
      | true =>
        rw [if_pos rfl]
        simp only [keysSorted, List.map_cons]
        apply strSorted_cons_of
        · exact hs
        · intro j hj
          simp only [List.map_cons, List.mem_cons] at hj
          rcases hj with he | hm
          · rw [he]; exact hlt
          · exact keyLt_trans hlt (hall j hm)
      | false =>
        rw [if_neg (by simp)]
        simp only [keysSorted, List.map_cons]
        apply strSorted_cons_of
        · exact ih k v hsr
        · intro j hj
          rcases mem_keys_insertEntry.mp hj with he | hm
          · subst he
            cases hlt2 : keyLt k2 j with
            | true => rfl
            | false => exact absurd (keyLt_conn hlt2 hlt).symm h
          · exact hall j hm

theorem lookupKey_insertEntry_self : ∀ (m : List (String × Value)) (k : String) (v : Value),
    lookupKey k (insertEntry k v m) = some v := by
  intro m k v
  induction m with
  | nil => simp [insertEntry, lookupKey]
  | cons e rest ih =>
    obtain ⟨k2, v2⟩ := e
    rw [insertEntry_cons]
    by_cases h : k = k2
    · rw [if_pos h, lookupKey_cons, if_pos rfl]
    · rw [if_neg h]
      cases hlt : keyLt k k2 with
      | true => rw [if_pos rfl, lookupKey_cons, if_pos rfl]
      | false =>
        rw [if_neg (by simp), lookupKey_cons, if_neg h, ih]

theorem lookupKey_insertEntry_other : ∀ (m : List (String × Value)) {j k : String} (v : Value),
    j ≠ k → lookupKey j (insertEntry k v m) = lookupKey j m := by
  intro m j k v hne
  induction m with
  | nil => simp [insertEntry, lookupKey, if_neg hne]
  | cons e rest ih =>
    obtain ⟨k2, v2⟩ := e
    rw [insertEntry_cons]
    by_cases h : k = k2
    · subst h
      rw [if_pos rfl, lookupKey_cons, lookupKey_cons, if_neg hne, if_neg hne]
    · rw [if_neg h]
      cases hlt : keyLt k k2 with
      | true =>
        rw [if_pos rfl, lookupKey_cons, if_neg hne, lookupKey_cons]
      | false =>
        rw [if_neg (by simp), lookupKey_cons, lookupKey_cons, ih]

theorem applyOp_removeLast : ∀ (l : List Value) (i : Nat), i < l.length →
    applyOp (.sequence l) (Op.removeSequenceElement [] i) = some (.sequence (l.eraseIdx i)) := by
  intro l i h
  simp only [applyOp, modifyAt]
  rw [if_pos h]

theorem applyOps_seqRemovals : ∀ (d : Nat) (l : List Value) (n2 : Nat),
    l.length - n2 = d →
    applyOps (.sequence l) (seqRemovals l.length n2) = some (.sequence (l.take n2)) := by
  intro d
  induction d with
  | zero =>
    intro l n2 h
    have hle : l.length ≤ n2 := Nat.le_of_sub_eq_zero h
    simp only [seqRemovals, h, List.range'_zero, List.reverse_nil, List.map_nil]
    rw [applyOps_nil, List.take_of_length_le hle]
  | succ k ih =>
    intro l n2 h
    have hlt : n2 < l.length := by omega
    have hrw : List.range' n2 (l.length - n2) = List.range' n2 k ++ [l.length - 1] := by
      have h1 : l.length - n2 = k + 1 := h
      rw [h1, List.range'_concat]
      congr 1
      simp
      omega
    rw [seqRemovals, hrw, List.reverse_append, List.reverse_singleton, List.singleton_append,
      List.map_cons, applyOps_cons_some _ (applyOp_removeLast l (l.length - 1) (by omega))]
    have herase : l.eraseIdx (l.length - 1) = l.take (l.length - 1) := by
      rw [List.eraseIdx_eq_take_drop_succ]
      rw [show l.length - 1 + 1 = l.length by omega, List.drop_of_length_le (le_refl _),
        List.append_nil]
    rw [herase]
    have hlen : (l.take (l.length - 1)).length = l.length - 1 := by
      rw [List.length_take]
      omega
    have hrem : (List.range' n2 k).reverse.map (fun i => Op.removeSequenceElement [] i) =
        seqRemovals (l.take (l.length - 1)).length n2 := by
      rw [seqRemovals, hlen, show l.length - 1 - n2 = k from by omega]
    rw [hrem, ih (l.take (l.length - 1)) n2 (by omega)]
    rw [List.take_take]
    congr 3
    omega

theorem applyOps_insertTail : ∀ (vs l : List Value),
    applyOps (.sequence l)
      (((List.range' l.length vs.length).zip vs).map
        (fun iv => Op.insertSequenceElement [] iv.1 iv.2)) = some (.sequence (l ++ vs)) := by
  intro vs
  induction vs with
  | nil =>
    intro l
    simp [applyOps_nil]
  | cons v rest ih =>
    intro l
    have hstep : applyOp (.sequence l) (Op.insertSequenceElement [] l.length v) =
        some (.sequence (l ++ [v])) := by
      simp only [applyOp, modifyAt]
      rw [if_pos (le_refl _), List.insertIdx_length_self]
    rw [List.length_cons, List.range'_succ, List.zip_cons_cons, List.map_cons,
      applyOps_cons_some _ hstep]
    have hlen : l.length + 1 = (l ++ [v]).length := by simp
    rw [hlen, ih (l ++ [v]), List.append_assoc, List.singleton_append]

theorem seqInsertions_eq : ∀ (n1 : Nat) (l2 : List Value),
    seqInsertions n1 l2 =
      ((List.range' n1 (l2.drop n1).length).zip (l2.drop n1)).map
        (fun iv => Op.insertSequenceElement [] iv.1 iv.2) := by
  intro n1 l2
  rw [seqInsertions, List.length_drop]

theorem getElem?_append_cons_self : ∀ (pre : List Value) (v : Value) (tail : List Value),
    (pre ++ v :: tail)[pre.length]? = some v := by
  intro pre v tail
  rw [List.getElem?_append_right (le_refl _), Nat.sub_self]
  simp

theorem set_append_cons_self : ∀ (pre : List Value) (v w : Value) (tail : List Value),
    (pre ++ v :: tail).set pre.length w = pre ++ w :: tail := by
  intro pre v w tail
  induction pre with
  | nil => rfl
  | cons a rest ih => simp [List.set_cons_succ, ih]

theorem strSorted_iff_pairwise : ∀ (ks : List String),
    strSorted ks = true ↔ List.Pairwise (fun a b => keyLt a b = true) ks := by
  intro ks
  induction ks with
  | nil => simp [strSorted]
  | cons k rest ih =>
    constructor
    · intro h
      obtain ⟨hs, hall⟩ := strSorted_cons h
      exact List.pairwise_cons.mpr ⟨hall, ih.mp hs⟩
    · intro h
      obtain ⟨hall, hp⟩ := List.pairwise_cons.mp h
      exact strSorted_cons_of (ih.mpr hp) hall

theorem keysSorted_filter : ∀ (m : List (String × Value)) (p : String × Value → Bool),
    keysSorted m = true → keysSorted (m.filter p) = true := by
  intro m p h
  rw [keysSorted, strSorted_iff_pairwise] at *
  exact List.Pairwise.sublist (List.Sublist.map Prod.fst (List.filter_sublist m)) h

theorem lookupKey_filter_keyPred : ∀ (m : List (String × Value)) (p : String → Bool) (k : String),
    lookupKey k (m.filter (fun e => p e.1)) = if p k then lookupKey k m else none := by
  intro m p k
  induction m with
  | nil => simp [lookupKey]
  | cons e rest ih =>
    obtain ⟨k2, v2⟩ := e
    by_cases hp : p k2
    · rw [List.filter_cons_of_pos (by simpa using hp), lookupKey_cons, lookupKey_cons]
      by_cases hk : k = k2
      · subst hk
        rw [if_pos rfl, if_pos rfl, if_pos hp]
      · rw [if_neg hk, if_neg hk, ih]
    · rw [List.filter_cons_of_neg (by simpa using hp), lookupKey_cons, ih]
      by_cases hk : k = k2
      · subst hk
        rw [if_neg hp, if_neg hp]
      · rw [if_neg hk]

theorem applyOp_removeMapKey : ∀ (m : List (String × Value)) (mk : MapKind) (k : String),
    applyOp (.map m mk) (Op.removeMapKey [] k) = some (.map (removeEntry k m) mk) := by
  intro m mk k
  rfl

theorem applyOps_removeKeys : ∀ (ks : List String) (m : List (String × Value)) (mk : MapKind),
    applyOps (.map m mk) (ks.map (fun k => Op.removeMapKey [] k)) =
      some (.map (m.filter (fun e => !(ks.contains e.1))) mk) := by
  intro ks
  induction ks with
  | nil =>
    intro m mk
    have hp : (fun (e : String × Value) => !(([] : List String).contains e.1)) =
        fun _ => true := by
      funext e
      simp
    rw [List.map_nil, applyOps_nil, hp, List.filter_true]
  | cons k rest ih =>
    intro m mk
    rw [List.map_cons, applyOps_cons_some _ (applyOp_removeMapKey m mk k)]
    rw [ih (removeEntry k m) mk]
    congr 2
    rw [removeEntry, List.filter_filter]
    apply List.filter_congr
    intro e _
    rw [List.contains_cons]
    cases he : e.1 == k <;> cases hr : rest.contains e.1 <;> simp [he, hr]

theorem applyOps_mapRemovals : ∀ (m1 m2 : List (String × Value)) (mk : MapKind),
    applyOps (.map m1 mk) (mapRemovals m1 m2) =
      some (.map (m1.filter (fun e => containsKey e.1 m2)) mk) := by
  intro m1 m2 mk
  have hrw : mapRemovals m1 m2 =
      ((m1.filter (fun e => !(containsKey e.1 m2))).map Prod.fst).map
        (fun k => Op.removeMapKey [] k) := by
    rw [mapRemovals, List.map_map]
    rfl
  rw [hrw, applyOps_removeKeys]
  congr 2
  apply List.filter_congr
  intro e he
  set ks := (m1.filter (fun e => !(containsKey e.1 m2))).map Prod.fst with hks
  cases hc : containsKey e.1 m2 with
  | true =>
    have : ks.contains e.1 = false := by
      cases hcontra : ks.contains e.1 with
      | false => rfl
      | true =>
        exfalso
        have hmem : e.1 ∈ ks := by
          simpa using hcontra
        rw [hks] at hmem
        obtain ⟨e2, he2, he2eq⟩ := List.mem_map.mp hmem
        obtain ⟨_, hpred⟩ := List.mem_filter.mp he2
        rw [he2eq] at hpred
        rw [hc] at hpred
        simp at hpred
    rw [this]
    rfl
  | false =>
    have : ks.contains e.1 = true := by
      have hmem : e.1 ∈ ks := by
        rw [hks]
        exact List.mem_map_of_mem Prod.fst
          (List.mem_filter.mpr ⟨he, by rw [hc]; rfl⟩)
      simpa using hmem
    rw [this]
    rfl

theorem applyOp_setMapValue : ∀ (m : List (String × Value)) (mk : MapKind) (k : String) (v : Value),
    applyOp (.map m mk) (Op.setMapValue [] k v) = some (.map (insertEntry k v m) mk) := by
  intro m mk k v
  rfl

theorem keysSorted_setEntry : ∀ (m : List (String × Value)) (k : String) (v : Value),
    keysSorted m = true → keysSorted (setEntry m k v) = true := by
  intro m k v h
  rw [keysSorted, setEntry_keys]
  exact h

/-- Replaying the insert/modify operations emitted for the new entries `rest`
turns any agreeing sorted map into one that looks up as `rest` first. -/
theorem applyOps_diffREntries :
    ∀ (rest m1 mcur : List (String × Value)) (mk : MapKind) (ops : List Op),
    diffREntries m1 rest = Except.ok ops →
    (∀ k v1 v2, lookupKey k m1 = some v1 → (k, v2) ∈ rest →
      ∀ ops1, diffR v1 v2 = Except.ok ops1 → applyOps v1 ops1 = some v2) →
    (∀ k v2, (k, v2) ∈ rest → lookupKey k mcur = lookupKey k m1) →
    keysSorted mcur = true →
    (rest.map Prod.fst).Nodup →
    ∃ mfin, applyOps (.map mcur mk) ops = some (.map mfin mk) ∧
      keysSorted mfin = true ∧
      (∀ j, lookupKey j mfin = (lookupKey j rest).or (lookupKey j mcur)) := by
  intro rest
  induction rest with
  | nil =>
    intro m1 mcur mk ops hd hrec hagree hsorted hnd
    simp only [diffREntries] at hd
    cases hd
    refine ⟨mcur, applyOps_nil _, hsorted, ?_⟩
    intro j
    rfl
  | cons e rest2 ih =>
    intro m1 mcur mk ops hd hrec hagree hsorted hnd
    obtain ⟨k, v2⟩ := e
    simp only [diffREntries] at hd
    simp only [List.map_cons, List.nodup_cons] at hnd
    cases hlk : lookupKey k m1 with
    | none =>
      simp only [hlk] at hd
      cases hrec2 : diffREntries m1 rest2 with
      | error e => simp only [hrec2] at hd; cases hd
      | ok ops2 =>
        simp only [hrec2] at hd
        cases hd
        rw [List.singleton_append,
          applyOps_cons_some _ (applyOp_setMapValue mcur mk k v2)]
        have hagree2 : ∀ k2 w2, (k2, w2) ∈ rest2 →
            lookupKey k2 (insertEntry k v2 mcur) = lookupKey k2 m1 := by
          intro k2 w2 hm
          have hne : k2 ≠ k := fun he =>
            hnd.1 (he ▸ List.mem_map_of_mem Prod.fst hm)
          rw [lookupKey_insertEntry_other mcur v2 hne]
          exact hagree k2 w2 (List.mem_cons_of_mem _ hm)
        obtain ⟨mfin, happ, hsfin, hlfin⟩ := ih m1 (insertEntry k v2 mcur) mk ops2 hrec2
          (fun k2 w1 w2 hl hm => hrec k2 w1 w2 hl (List.mem_cons_of_mem _ hm))
          hagree2 (keysSorted_insertEntry k v2 hsorted) hnd.2
        refine ⟨mfin, happ, hsfin, ?_⟩
        intro j
        rw [hlfin j, lookupKey_cons]
        by_cases hj : j = k
        · subst hj
          have hn : lookupKey j rest2 = none :=
            lookupKey_eq_none_of_not_mem (by
              intro hm
              exact hnd.1 (by simpa using hm))
          rw [if_pos rfl, hn, lookupKey_insertEntry_self]
          rfl
        · rw [if_neg hj, lookupKey_insertEntry_other mcur v2 hj]
    | some v1 =>
      simp only [hlk] at hd
      cases hdv : diffR v1 v2 with
      | error e => simp only [hdv] at hd; cases hd
      | ok ops1 =>
        simp only [hdv] at hd
        cases hrec2 : diffREntries m1 rest2 with
        | error e => simp only [hrec2] at hd; cases hd
        | ok ops2 =>
          simp only [hrec2] at hd
          cases hd
          rw [applyOps_append]
          have hlkcur : lookupKey k mcur = some v1 := by
            rw [hagree k v2 (List.mem_cons_self _ _), hlk]
          have hrep : applyOps v1 ops1 = some v2 :=
            hrec k v1 v2 hlk (List.mem_cons_self _ _) ops1 hdv
          have hshift := applyOps_key_shift ops1 mk (keysSorted_nodup hsorted) hlkcur hrep
          rw [show (ops1.map (prependElem (PathElem.key k))) =
            (List.map (prependElem (PathElem.key k)) ops1) from rfl] at hshift
          rw [hshift]
          have hagree2 : ∀ k2 w2, (k2, w2) ∈ rest2 →
              lookupKey k2 (setEntry mcur k v2) = lookupKey k2 m1 := by
            intro k2 w2 hm
            have hne : k2 ≠ k := fun he =>
              hnd.1 (he ▸ List.mem_map_of_mem Prod.fst hm)
            rw [lookupKey_setEntry_other mcur v2 hne]
            exact hagree k2 w2 (List.mem_cons_of_mem _ hm)
          obtain ⟨mfin, happ, hsfin, hlfin⟩ := ih m1 (setEntry mcur k v2) mk ops2 hrec2
            (fun k2 w1 w2 hl hm => hrec k2 w1 w2 hl (List.mem_cons_of_mem _ hm))
            hagree2 (keysSorted_setEntry mcur k v2 hsorted) hnd.2
          refine ⟨mfin, happ, hsfin, ?_⟩
          intro j
          rw [hlfin j, lookupKey_cons]
          by_cases hj : j = k
          · subst hj
            have hn : lookupKey j rest2 = none :=
              lookupKey_eq_none_of_not_mem (by
                intro hm
                exact hnd.1 (by simpa using hm))
            rw [if_pos rfl, hn, lookupKey_setEntry_self hlkcur]
            rfl
          · rw [if_neg hj, lookupKey_setEntry_other mcur v2 hj]

/-- Replaying the matched-position recursive diffs rewrites the aligned
prefix of the old sequence into the new one. -/
theorem applyOps_diffRSeq :
    ∀ (a1 a2 pre : List Value) (ops : List Op),
    diffRSeq a1 a2 pre.length = Except.ok ops →
    (∀ v1 v2, (v1, v2) ∈ a1.zip a2 →
      ∀ ops1, diffR v1 v2 = Except.ok ops1 → applyOps v1 ops1 = some v2) →
    applyOps (.sequence (pre ++ (a1.take a2.length ++ a2.drop a1.length))) ops =
      some (.sequence (pre ++ a2)) := by
  intro a1
  induction a1 with
  | nil =>
    intro a2 pre ops hd hrec
    cases a2 with
    | nil =>
      simp only [diffRSeq] at hd
      cases hd
      simp [applyOps_nil]
    | cons v2 r2 =>
      simp only [diffRSeq] at hd
      cases hd
      rw [applyOps_nil]
      simp
  | cons v1 r1 ih =>
    intro a2 pre ops hd hrec
    cases a2 with
    | nil =>
      simp only [diffRSeq] at hd
      cases hd
      rw [applyOps_nil]
      simp
    | cons v2 r2 =>
      simp only [diffRSeq] at hd
      cases hdv : diffR v1 v2 with
      | error e => rw [hdv] at hd; cases hd
      | ok ops1 =>
        rw [hdv] at hd
        cases hrec2 : diffRSeq r1 r2 (pre.length + 1) with
        | error e => rw [hrec2] at hd; cases hd
        | ok more =>
          rw [hrec2] at hd
          cases hd
          rw [applyOps_append]
          have hrep : applyOps v1 ops1 = some v2 :=
            hrec v1 v2 (by rw [List.zip_cons_cons]; exact List.mem_cons_self _ _) ops1 hdv
          have hlist : (v1 :: r1).take (v2 :: r2).length ++ (v2 :: r2).drop (v1 :: r1).length =
              v1 :: (r1.take r2.length ++ r2.drop r1.length) := by
            rw [List.length_cons, List.length_cons, List.take_succ_cons, List.drop_succ_cons,
              List.cons_append]
          rw [hlist]
          have hidx : (pre ++ v1 :: (r1.take r2.length ++ r2.drop r1.length))[pre.length]? =
              some v1 := getElem?_append_cons_self pre v1 _
          have hshift := applyOps_index_shift ops1 hidx hrep
          rw [set_append_cons_self] at hshift
          rw [hshift]
          have hpre : pre ++ v2 :: (r1.take r2.length ++ r2.drop r1.length) =
              (pre ++ [v2]) ++ (r1.take r2.length ++ r2.drop r1.length) := by
            simp
          have hpre2 : pre ++ v2 :: r2 = (pre ++ [v2]) ++ r2 := by
            simp
          rw [hpre, hpre2]
          have hlen2 : pre.length + 1 = (pre ++ [v2]).length := by
            simp
          rw [hlen2] at hrec2
          exact ih r2 (pre ++ [v2]) more hrec2
            (fun w1 w2 hm => hrec w1 w2
              (by rw [List.zip_cons_cons]; exact List.mem_cons_of_mem _ hm))

theorem commonPrefixLen_le_left : ∀ (t1 t2 : List Char), commonPrefixLen t1 t2 ≤ t1.length := by
  intro t1
  induction t1 with
  | nil => intro t2; simp [commonPrefixLen]
  | cons a as ih =>
    intro t2
    cases t2 with
    | nil => simp [commonPrefixLen]
    | cons b bs =>
      simp only [commonPrefixLen, List.length_cons]
      by_cases h : a = b
      · rw [if_pos h]
        exact Nat.succ_le_succ (ih bs)
      · rw [if_neg h]
        exact Nat.zero_le _

theorem commonPrefixLen_le_right : ∀ (t1 t2 : List Char), commonPrefixLen t1 t2 ≤ t2.length := by
  intro t1
  induction t1 with
  | nil => intro t2; simp [commonPrefixLen]
  | cons a as ih =>
    intro t2
    cases t2 with
    | nil => simp [commonPrefixLen]
    | cons b bs =>
      simp only [commonPrefixLen, List.length_cons]
      by_cases h : a = b
      · rw [if_pos h]
        exact Nat.succ_le_succ (ih bs)
      · rw [if_neg h]
        exact Nat.zero_le _

theorem take_commonPrefixLen_eq : ∀ (t1 t2 : List Char),
    t1.take (commonPrefixLen t1 t2) = t2.take (commonPrefixLen t1 t2) := by
  intro t1
  induction t1 with
  | nil => intro t2; simp [commonPrefixLen]
  | cons a as ih =>
    intro t2
    cases t2 with
    | nil => simp [commonPrefixLen]
    | cons b bs =>
      simp only [commonPrefixLen]
      by_cases h : a = b
      · rw [if_pos h]
        simp only [List.take_succ_cons]
        rw [h, ih bs]
      · rw [if_neg h]
        simp

theorem applyOps_setScalar_root : ∀ (v w : Value), applyOps v [Op.setScalar [] w] = some w := by
  intro v w
  cases v <;> rfl

/-- Replaying the single `SetTextRange` emitted by the text differ rewrites
the old char list into the new one. -/
theorem textDiff_replay : ∀ (t1 t2 : List Char),
    applyOps (.text t1) (textDiff t1 t2) = some (.text t2) := by
  intro t1 t2
  have ha1 : commonPrefixLen t1 t2 ≤ t1.length := commonPrefixLen_le_left t1 t2
  have ha2 : commonPrefixLen t1 t2 ≤ t2.length := commonPrefixLen_le_right t1 t2
  set a := commonPrefixLen t1 t2 with hadef
  set u := t1.drop a with hudef
  set w := t2.drop a with hwdef
  set s := commonPrefixLen u.reverse w.reverse with hsdef
  have hs1 : s ≤ t1.length - a := by
    have := commonPrefixLen_le_left u.reverse w.reverse
    simpa [hudef] using this
  have hs2 : s ≤ t2.length - a := by
    have := commonPrefixLen_le_right u.reverse w.reverse
    simpa [hwdef] using this
  have hcond : a ≤ t1.length - s ∧ t1.length - s ≤ t1.length := by omega
  have happly : applyOp (.text t1)
      (Op.setTextRange [] a (t1.length - s) ((t2.take (t2.length - s)).drop a)) =
      some (.text (t1.take a ++ (t2.take (t2.length - s)).drop a ++ t1.drop (t1.length - s))) := by
    simp only [applyOp, modifyAt]
    rw [if_pos hcond]
  rw [textDiff, applyOps_cons_some _ happly, applyOps_nil]
  congr 2
  have htake : t1.take a = t2.take a := take_commonPrefixLen_eq t1 t2
  have hdrop : t1.drop (t1.length - s) = t2.drop (t2.length - s) := by
    have hu : u.reverse.take s = w.reverse.take s := take_commonPrefixLen_eq u.reverse w.reverse
    have h1 : t1.drop (t1.length - s) = u.drop (u.length - s) := by
      rw [hudef, List.drop_drop]
      congr 1
      rw [List.length_drop]
      omega
    have h2 : t2.drop (t2.length - s) = w.drop (w.length - s) := by
      rw [hwdef, List.drop_drop]
      congr 1
      rw [List.length_drop]
      omega
    have h3 : u.drop (u.length - s) = (u.reverse.take s).reverse := by
      rw [List.take_reverse, List.reverse_reverse]
    have h4 : w.drop (w.length - s) = (w.reverse.take s).reverse := by
      rw [List.take_reverse, List.reverse_reverse]
    rw [h1, h2, h3, h4, hu]
  rw [htake, hdrop]
  have hmin : t2.take a = (t2.take (t2.length - s)).take a := by
    rw [List.take_take]
    congr 1
    omega
  rw [hmin, List.take_append_drop, List.take_append_drop]

/-- Replaying the scalar comparator's output rewrites the old scalar into the
new one (the increment adds exactly the emitted delta). -/
theorem primDiff_replay : ∀ (p1 p2 : Primitive) (ops : List Op),
    primDiff p1 p2 = Except.ok ops → applyOps (.primitive p1) ops = some (.primitive p2) := by
  intro p1 p2 ops hd
  cases p1 <;> cases p2 <;> simp only [primDiff] at hd <;> cases hd <;>
    first
      | rfl
      | (show some (Value.primitive (Primitive.counter (_ + (_ - _)))) = _
         rw [show ∀ (a b : Int), a + (b - a) = b from fun a b => by omega])

theorem wf_map_parts : ∀ {m : List (String × Value)} {mk : MapKind},
    Value.wf (.map m mk) = true → keysSorted m = true ∧ Value.wfEntries m = true := by
  intro m mk h
  simpa [Value.wf, Bool.and_eq_true] using h

theorem wf_of_mem_entries : ∀ {m : List (String × Value)} {k : String} {v : Value},
    Value.wfEntries m = true → (k, v) ∈ m → Value.wf v = true := by
  intro m
  induction m with
  | nil => intro k v _ hm; cases hm
  | cons e rest ih =>
    intro k v h hm
    obtain ⟨k2, v2⟩ := e
    simp only [Value.wfEntries, Bool.and_eq_true] at h
    rcases List.mem_cons.mp hm with he | hm2
    · cases he
      exact h.1
    · exact ih h.2 hm2

theorem wf_of_mem_list : ∀ {l : List Value} {v : Value},
    Value.wfList l = true → v ∈ l → Value.wf v = true := by
  intro l
  induction l with
  | nil => intro v _ hm; cases hm
  | cons a rest ih =>
    intro v h hm
    simp only [Value.wfList, Bool.and_eq_true] at h
    rcases List.mem_cons.mp hm with he | hm2
    · rw [he]; exact h.1
    · exact ih h.2 hm2

theorem sizeOf_lt_of_mem_entries : ∀ {m : List (String × Value)} {k : String} {v : Value},
    (k, v) ∈ m → sizeOf v < sizeOf m := by
  intro m k v hm
  have h1 : sizeOf (k, v) < sizeOf m := List.sizeOf_lt_of_mem hm
  have h2 : sizeOf (k, v) = 1 + sizeOf k + sizeOf v := rfl
  omega

theorem lookupKey_isSome_of_mem : ∀ {m : List (String × Value)} {k : String} {v : Value},
    (k, v) ∈ m → ∃ w, lookupKey k m = some w := by
  intro m k v hm
  induction m with
  | nil => cases hm
  | cons e rest ih =>
    obtain ⟨k2, v2⟩ := e
    rw [lookupKey_cons]
    by_cases hk : k = k2
    · exact ⟨v2, by rw [if_pos hk]⟩
    · rcases List.mem_cons.mp hm with he | hm2
      · cases he; exact absurd rfl hk
      · obtain ⟨w, hw⟩ := ih hm2
        exact ⟨w, by rw [if_neg hk, hw]⟩

theorem applyOps_append_some : ∀ {v w : Value} {a : List Op} (b : List Op),
    applyOps v a = some w → applyOps v (a ++ b) = applyOps w b := by
  intro v w a b h
  rw [applyOps_append, h]

theorem applyOps_seqInsertions_phase : ∀ (l1 l2 : List Value),
    applyOps (.sequence (l1.take l2.length)) (seqInsertions l1.length l2) =
      some (.sequence (l1.take l2.length ++ l2.drop l1.length)) := by
  intro l1 l2
  by_cases h : l1.length ≤ l2.length
  · rw [List.take_of_length_le h, seqInsertions_eq, applyOps_insertTail]
  · have h2 : l2.length ≤ l1.length := le_of_not_le h
    have hdrop : l2.drop l1.length = [] := List.drop_of_length_le h2
    rw [hdrop, List.append_nil, seqInsertions_eq, hdrop]
    simp [applyOps_nil]

/-- Replaying the whole sequence-differ script (removals, insertions, matched
recursion) rewrites the old sequence into the new one. -/
theorem diffR_replay_seq : ∀ (l1 l2 : List Value) (ops3 : List Op),
    (∀ v1 v2, (v1, v2) ∈ l1.zip l2 →
      ∀ ops1, diffR v1 v2 = Except.ok ops1 → applyOps v1 ops1 = some v2) →
    diffRSeq l1 l2 0 = Except.ok ops3 →
    applyOps (.sequence l1)
      (seqRemovals l1.length l2.length ++ (seqInsertions l1.length l2 ++ ops3)) =
      some (.sequence l2) := by
  intro l1 l2 ops3 hzip hds
  rw [applyOps_append_some _ (applyOps_seqRemovals (l1.length - l2.length) l1 l2.length rfl)]
  rw [applyOps_append_some _ (applyOps_seqInsertions_phase l1 l2)]
  have hmain := applyOps_diffRSeq l1 l2 [] ops3 hds hzip
  simpa only [List.nil_append] using hmain

/-- Replaying the whole map-differ script (removals, then insertions and
modifications) rewrites the old map into the new one. -/
theorem diffR_replay_map : ∀ (m1 m2 : List (String × Value)) (mk : MapKind) (ops2 : List Op),
    keysSorted m1 = true → keysSorted m2 = true →
    (∀ k v1 v2, lookupKey k m1 = some v1 → (k, v2) ∈ m2 →
      ∀ ops1, diffR v1 v2 = Except.ok ops1 → applyOps v1 ops1 = some v2) →
    diffREntries m1 m2 = Except.ok ops2 →
    applyOps (.map m1 mk) (mapRemovals m1 m2 ++ ops2) = some (.map m2 mk) := by
  intro m1 m2 mk ops2 hs1 hs2 hrec hde
  rw [applyOps_append_some _ (applyOps_mapRemovals m1 m2 mk)]
  have hagree : ∀ k v2, (k, v2) ∈ m2 →
      lookupKey k (m1.filter (fun e => containsKey e.1 m2)) = lookupKey k m1 := by
    intro k v2 hm
    rw [lookupKey_filter_keyPred m1 (fun j => containsKey j m2) k]
    obtain ⟨w, hw⟩ := lookupKey_isSome_of_mem hm
    rw [if_pos (by simp [containsKey, hw])]
  obtain ⟨mfin, happ, hsfin, hlfin⟩ := applyOps_diffREntries m2 m1
    (m1.filter (fun e => containsKey e.1 m2)) mk ops2 hde hrec hagree
    (keysSorted_filter m1 _ hs1) (keysSorted_nodup hs2)
  rw [happ]
  have hfin : mfin = m2 := by
    apply sorted_lookup_ext hsfin hs2
    intro j
    rw [hlfin j]
    cases hm2j : lookupKey j m2 with
    | some w => rfl
    | none =>
      show lookupKey j (m1.filter (fun e => containsKey e.1 m2)) = none
      rw [lookupKey_filter_keyPred m1 (fun j => containsKey j m2) j,
        if_neg (by simp [containsKey, hm2j])]
  rw [hfin]

theorem diffR_of_veq : ∀ (old new : Value), Value.veq old new = true →
    diffR old new = Except.ok [] := by
  intro old new h
  cases old <;> cases new <;> simp [diffR, h]

/-- Core replay-correctness: on well-formed (canonical) values, a successful
diff replays the old value into the new one. -/
theorem diffR_replay_aux : ∀ (n : Nat) (old new : Value), sizeOf old ≤ n →
    Value.wf old = true → Value.wf new = true →
    ∀ ops, diffR old new = Except.ok ops → applyOps old ops = some new := by
  intro n
  induction n with
  | zero =>
    intro old new hsz
    exfalso
    cases old <;> simp at hsz
  | succ n ih =>
    intro old new hsz hwf1 hwf2 ops hd
    by_cases hveq : Value.veq old new = true
    · rw [diffR_of_veq old new hveq] at hd
      cases hd
      rw [applyOps_nil, Value.veq_eq old new hveq]
    · have hveqf : Value.veq old new = false := by
        simpa using hveq
      cases old with
      | map m1 k1 =>
        cases new with
        | map m2 k2 =>
          simp only [diffR, hveqf, Bool.false_eq_true, if_false] at hd
          have hrec : ∀ k v1 v2, lookupKey k m1 = some v1 → (k, v2) ∈ m2 →
              ∀ ops1, diffR v1 v2 = Except.ok ops1 → applyOps v1 ops1 = some v2 := by
            intro k v1 v2 hlk hm ops1 hd1
            have hsz1 : sizeOf v1 ≤ n := by
              have h1 : sizeOf v1 < sizeOf m1 := sizeOf_lt_of_mem_entries (lookupKey_mem hlk)
              have h2 : sizeOf (Value.map m1 k1) = 1 + sizeOf m1 + sizeOf k1 := by
                simp
              omega
            exact ih v1 v2 hsz1
              (wf_of_mem_entries (wf_map_parts hwf1).2 (lookupKey_mem hlk))
              (wf_of_mem_entries (wf_map_parts hwf2).2 hm) ops1 hd1
          by_cases hkk : k1 = k2
          · subst hkk
            rw [if_pos (by simp)] at hd
            cases hde : diffREntries m1 m2 with
            | error e => simp only [hde] at hd; cases hd
            | ok ops2 =>
              simp only [hde] at hd
              cases hd
              exact diffR_replay_map m1 m2 k1 ops2 (wf_map_parts hwf1).1
                (wf_map_parts hwf2).1 hrec hde
          · rw [if_neg (by simp [hkk])] at hd
            cases hd
            exact applyOps_setScalar_root _ _
        | sequence l2 =>
          simp only [diffR, hveqf, Bool.false_eq_true, if_false] at hd
          cases hd
          exact applyOps_setScalar_root _ _
        | text t2 =>
          simp only [diffR, hveqf, Bool.false_eq_true, if_false] at hd
          cases hd
          exact applyOps_setScalar_root _ _
        | primitive p2 =>
          simp only [diffR, hveqf, Bool.false_eq_true, if_false] at hd
          cases hd
          exact applyOps_setScalar_root _ _
      | sequence l1 =>
        cases new with
        | map m2 k2 =>
          simp only [diffR, hveqf, Bool.false_eq_true, if_false] at hd
          cases hd
          exact applyOps_setScalar_root _ _
        | sequence l2 =>
          simp only [diffR, hveqf, Bool.false_eq_true, if_false] at hd
          cases hds : diffRSeq l1 l2 0 with
          | error e => simp only [hds] at hd; cases hd
          | ok ops3 =>
            simp only [hds] at hd
            cases hd
            rw [List.append_assoc]
            have hzip : ∀ v1 v2, (v1, v2) ∈ l1.zip l2 →
                ∀ ops1, diffR v1 v2 = Except.ok ops1 → applyOps v1 ops1 = some v2 := by
              intro v1 v2 hm ops1 hd1
              obtain ⟨hm1, hm2⟩ := List.mem_zip hm
              have hsz1 : sizeOf v1 ≤ n := by
                have h1 : sizeOf v1 < sizeOf l1 := List.sizeOf_lt_of_mem hm1
                have h2 : sizeOf (Value.sequence l1) = 1 + sizeOf l1 := by
                  simp
                omega
              exact ih v1 v2 hsz1 (wf_of_mem_list hwf1 hm1) (wf_of_mem_list hwf2 hm2) ops1 hd1
            exact diffR_replay_seq l1 l2 ops3 hzip hds
        | text t2 =>
          simp only [diffR, hveqf, Bool.false_eq_true, if_false] at hd
          cases hd
          exact applyOps_setScalar_root _ _
        | primitive p2 =>
          simp only [diffR, hveqf, Bool.false_eq_true, if_false] at hd
          cases hd
          exact applyOps_setScalar_root _ _
      | text t1 =>
        cases new with
        | map m2 k2 =>
          simp only [diffR, hveqf, Bool.false_eq_true, if_false] at hd
          cases hd
          exact applyOps_setScalar_root _ _
        | sequence l2 =>
          simp only [diffR, hveqf, Bool.false_eq_true, if_false] at hd
          cases hd
          exact applyOps_setScalar_root _ _
        | text t2 =>
          simp only [diffR, hveqf, Bool.false_eq_true, if_false] at hd
          cases hd
          exact textDiff_replay t1 t2
        | primitive p2 =>
          simp only [diffR, hveqf, Bool.false_eq_true, if_false] at hd
          cases hd
          exact applyOps_setScalar_root _ _
      | primitive p1 =>
        cases new with
        | map m2 k2 =>
          simp only [diffR, hveqf, Bool.false_eq_true, if_false] at hd
          cases hd
          exact applyOps_setScalar_root _ _
        | sequence l2 =>
          simp only [diffR, hveqf, Bool.false_eq_true, if_false] at hd
          cases hd
          exact applyOps_setScalar_root _ _
        | text t2 =>
          simp only [diffR, hveqf, Bool.false_eq_true, if_false] at hd
          cases hd
          exact applyOps_setScalar_root _ _
        | primitive p2 =>
          simp only [diffR, hveqf, Bool.false_eq_true, if_false] at hd
          exact primDiff_replay p1 p2 ops hd

/-- Replay-correctness of `diffR` on well-formed values. -/
theorem diffR_replay : ∀ (old new : Value),
    Value.wf old = true → Value.wf new = true →
    ∀ ops, diffR old new = Except.ok ops → applyOps old ops = some new := by
  intro old new hwf1 hwf2 ops hd
  exact diffR_replay_aux (sizeOf old) old new (le_refl _) hwf1 hwf2 ops hd

/-- Replay-correctness of the path-qualified entry point at the root path. -/
theorem diff_replay : ∀ (old new : Value),
    Value.wf old = true → Value.wf new = true →
    ∀ ops, diff old new [] = Except.ok ops → applyOps old ops = some new := by
  intro old new hwf1 hwf2 ops hd
  unfold diff at hd
  cases hdr : diffR old new with
  | error e => simp only [hdr] at hd; cases hd
  | ok ops0 =>
    simp only [hdr, map_prependPath_nil] at hd
    cases hd
    exact diffR_replay old new hwf1 hwf2 _ hdr

theorem cursorFree_of_mem_entries : ∀ {m : List (String × Value)} {k : String} {v : Value},
    Value.cursorFreeEntries m = true → (k, v) ∈ m → Value.cursorFree v = true := by
  intro m
  induction m with
  | nil => intro k v _ hm; cases hm
  | cons e rest ih =>
    intro k v h hm
    obtain ⟨k2, v2⟩ := e
    simp only [Value.cursorFreeEntries, Bool.and_eq_true] at h
    rcases List.mem_cons.mp hm with he | hm2
    · cases he; exact h.1
    · exact ih h.2 hm2

theorem cursorFree_of_mem_list : ∀ {l : List Value} {v : Value},
    Value.cursorFreeList l = true → v ∈ l → Value.cursorFree v = true := by
  intro l
  induction l with
  | nil => intro v _ hm; cases hm
  | cons a rest ih =>
    intro v h hm
    simp only [Value.cursorFreeList, Bool.and_eq_true] at h
    rcases List.mem_cons.mp hm with he | hm2
    · rw [he]; exact h.1
    · exact ih h.2 hm2

theorem primDiff_ok_of_cursorFree : ∀ (p1 p2 : Primitive),
    Value.cursorFree (.primitive p1) = true → ∃ ops, primDiff p1 p2 = Except.ok ops := by
  intro p1 p2 h
  cases p1 <;> cases p2 <;> first
    | exact ⟨_, rfl⟩
    | (exfalso; simp [Value.cursorFree] at h)

theorem diffREntries_ok : ∀ (rest m1 : List (String × Value)),
    (∀ k v1 v2, lookupKey k m1 = some v1 → (k, v2) ∈ rest →
      ∃ ops1, diffR v1 v2 = Except.ok ops1) →
    ∃ ops, diffREntries m1 rest = Except.ok ops := by
  intro rest
  induction rest with
  | nil => intro m1 _; exact ⟨[], rfl⟩
  | cons e rest2 ih =>
    intro m1 hrec
    obtain ⟨k, v2⟩ := e
    obtain ⟨ops2, hops2⟩ := ih m1
      (fun k2 w1 w2 hl hm => hrec k2 w1 w2 hl (List.mem_cons_of_mem _ hm))
    cases hlk : lookupKey k m1 with
    | none =>
      refine ⟨[Op.setMapValue [] k v2] ++ ops2, ?_⟩
      simp only [diffREntries, hlk, hops2]
    | some v1 =>
      obtain ⟨ops1, hops1⟩ := hrec k v1 v2 hlk (List.mem_cons_self _ _)
      refine ⟨ops1.map (prependElem (.key k)) ++ ops2, ?_⟩
      simp only [diffREntries, hlk, hops1, hops2]

theorem diffRSeq_ok : ∀ (l1 l2 : List Value) (i : Nat),
    (∀ v1 v2, (v1, v2) ∈ l1.zip l2 → ∃ ops1, diffR v1 v2 = Except.ok ops1) →
    ∃ ops, diffRSeq l1 l2 i = Except.ok ops := by
  intro l1
  induction l1 with
  | nil =>
    intro l2 i _
    cases l2 with
    | nil => exact ⟨[], rfl⟩
    | cons v2 r2 => exact ⟨[], rfl⟩
  | cons v1 r1 ih =>
    intro l2 i hrec
    cases l2 with
    | nil => exact ⟨[], rfl⟩
    | cons v2 r2 =>
      obtain ⟨ops1, hops1⟩ := hrec v1 v2 (by rw [List.zip_cons_cons]; exact List.mem_cons_self _ _)
      obtain ⟨more, hmore⟩ := ih r2 (i + 1)
        (fun w1 w2 hm => hrec w1 w2 (by rw [List.zip_cons_cons]; exact List.mem_cons_of_mem _ hm))
      refine ⟨ops1.map (prependElem (.index i)) ++ more, ?_⟩
      simp only [diffRSeq, hops1, hmore]

/-- The diff dispatcher never fails on cursor-free inputs. -/
theorem diffR_ok_of_cursorFree_aux : ∀ (n : Nat) (old new : Value), sizeOf old ≤ n →
    Value.cursorFree old = true → Value.cursorFree new = true →
    ∃ ops, diffR old new = Except.ok ops := by
  intro n
  induction n with
  | zero =>
    intro old new hsz
    exfalso
    cases old <;> simp at hsz
  | succ n ih =>
    intro old new hsz hcf1 hcf2
    by_cases hveq : Value.veq old new = true
    · exact ⟨[], diffR_of_veq old new hveq⟩
    · have hveqf : Value.veq old new = false := by simpa using hveq
      cases old with
      | map m1 k1 =>
        cases new with
        | map m2 k2 =>
          by_cases hkk : k1 = k2
          · subst hkk
            obtain ⟨ops2, hde⟩ := diffREntries_ok m2 m1 (by
              intro k v1 v2 hlk hm
              have hsz1 : sizeOf v1 ≤ n := by
                have h1 : sizeOf v1 < sizeOf m1 := sizeOf_lt_of_mem_entries (lookupKey_mem hlk)
                have h2 : sizeOf (Value.map m1 k1) = 1 + sizeOf m1 + sizeOf k1 := by simp
                omega
              exact ih v1 v2 hsz1
                (cursorFree_of_mem_entries (by simpa [Value.cursorFree] using hcf1)
                  (lookupKey_mem hlk))
                (cursorFree_of_mem_entries (by simpa [Value.cursorFree] using hcf2) hm))
            refine ⟨mapRemovals m1 m2 ++ ops2, ?_⟩
            simp only [diffR, hveqf, Bool.false_eq_true, if_false]
            rw [if_pos (by simp)]
            simp only [hde]
          · refine ⟨[Op.setScalar [] (.map m2 k2)], ?_⟩
            simp only [diffR, hveqf, Bool.false_eq_true, if_false]
            rw [if_neg (by simp [hkk])]
        | sequence l2 => exact ⟨[Op.setScalar [] (.sequence l2)], by simp [diffR, hveqf]⟩
        | text t2 => exact ⟨[Op.setScalar [] (.text t2)], by simp [diffR, hveqf]⟩
        | primitive p2 => exact ⟨[Op.setScalar [] (.primitive p2)], by simp [diffR, hveqf]⟩
      | sequence l1 =>
        cases new with
        | map m2 k2 => exact ⟨[Op.setScalar [] (.map m2 k2)], by simp [diffR, hveqf]⟩
        | sequence l2 =>
          obtain ⟨ops3, hds⟩ := diffRSeq_ok l1 l2 0 (by
            intro v1 v2 hm
            obtain ⟨hm1, hm2⟩ := List.of_mem_zip hm
            have hsz1 : sizeOf v1 ≤ n := by
              have h1 : sizeOf v1 < sizeOf l1 := List.sizeOf_lt_of_mem hm1
              have h2 : sizeOf (Value.sequence l1) = 1 + sizeOf l1 := by simp
              omega
            exact ih v1 v2 hsz1
              (cursorFree_of_mem_list (by simpa [Value.cursorFree] using hcf1) hm1)
              (cursorFree_of_mem_list (by simpa [Value.cursorFree] using hcf2) hm2))
          refine ⟨seqRemovals l1.length l2.length ++ (seqInsertions l1.length l2 ++ ops3), ?_⟩
          simp only [diffR, hveqf, Bool.false_eq_true, if_false, hds]
          rw [List.append_assoc]
        | text t2 => exact ⟨[Op.setScalar [] (.text t2)], by simp [diffR, hveqf]⟩
        | primitive p2 => exact ⟨[Op.setScalar [] (.primitive p2)], by simp [diffR, hveqf]⟩
      | text t1 =>
        cases new with
        | map m2 k2 => exact ⟨[Op.setScalar [] (.map m2 k2)], by simp [diffR, hveqf]⟩
        | sequence l2 => exact ⟨[Op.setScalar [] (.sequence l2)], by simp [diffR, hveqf]⟩
        | text t2 => exact ⟨textDiff t1 t2, by simp [diffR, hveqf]⟩
        | primitive p2 => exact ⟨[Op.setScalar [] (.primitive p2)], by simp [diffR, hveqf]⟩
      | primitive p1 =>
        cases new with
        | map m2 k2 => exact ⟨[Op.setScalar [] (.map m2 k2)], by simp [diffR, hveqf]⟩
        | sequence l2 => exact ⟨[Op.setScalar [] (.sequence l2)], by simp [diffR, hveqf]⟩
        | text t2 => exact ⟨[Op.setScalar [] (.text t2)], by simp [diffR, hveqf]⟩
        | primitive p2 =>
          obtain ⟨ops1, hops1⟩ := primDiff_ok_of_cursorFree p1 p2 hcf1
          refine ⟨ops1, ?_⟩
          simp only [diffR, hveqf, Bool.false_eq_true, if_false, hops1]

theorem diff_ok_of_cursorFree : ∀ (old new : Value) (p : DiffPath),
    Value.cursorFree old = true → Value.cursorFree new = true →
    ∃ ops, diff old new p = Except.ok ops := by
  intro old new p h1 h2
  obtain ⟨ops0, hok⟩ := diffR_ok_of_cursorFree_aux (sizeOf old) old new (le_refl _) h1 h2
  exact ⟨ops0.map (prependPath p), by rw [diff, hok]⟩

theorem diff_error_incompatible : ∀ (old new : Value) (p : DiffPath) (e : DiffError),
    diff old new p = Except.error e → e = DiffError.incompatible := by
  intro old new p e _
  cases e
  rfl

/-- Non-strict key comparison used to sort entries deterministically. -/
def entryLe (e1 e2 : String × Value) : Bool := !(keyLt e2.1 e1.1)

mutual

/-- Canonical representative of a value: every map node's entries are sorted
by the deterministic key order.  This models reading a `HashMap`'s content in
a deterministic order, independent of its iteration order. -/
def Value.canon : Value → Value
  | .map m mk => .map ((Value.canonEntries m).mergeSort entryLe) mk
  | .sequence l => .sequence (Value.canonList l)
  | .text t => .text t
  | .primitive p => .primitive p

def Value.canonEntries : List (String × Value) → List (String × Value)
  | [] => []
  | (k, v) :: r => (k, Value.canon v) :: Value.canonEntries r

def Value.canonList : List Value → List Value
  | [] => []
  | v :: r => Value.canon v :: Value.canonList r

end

/-- No key occurs twice. -/
def keysNodupB : List String → Bool
  | [] => true
  | k :: rest => !(rest.contains k) && keysNodupB rest

mutual

/-- Every map node of the value has pairwise-distinct keys (the spec's map
invariant, without demanding a particular entry order). -/
def Value.keysDistinct : Value → Bool
  | .map m _ => keysNodupB (m.map Prod.fst) && Value.keysDistinctEntries m
  | .sequence l => Value.keysDistinctList l
  | .text _ => true
  | .primitive _ => true

def Value.keysDistinctEntries : List (String × Value) → Bool
  | [] => true
  | (_, v) :: r => Value.keysDistinct v && Value.keysDistinctEntries r

def Value.keysDistinctList : List Value → Bool
  | [] => true
  | v :: r => Value.keysDistinct v && Value.keysDistinctList r

end


theorem entryLe_trans : ∀ (a b c : String × Value),
    entryLe a b = true → entryLe b c = true → entryLe a c = true := by
  intro a b c hab hbc
  simp only [entryLe, Bool.not_eq_true'] at *
  cases hca : keyLt c.1 a.1 with
  | false => rfl
  | true =>
    exfalso
    cases hab2 : keyLt a.1 b.1 with
    | true =>
      have h1 : keyLt c.1 b.1 = true := keyLt_trans hca hab2
      rw [hbc] at h1
      cases h1
    | false =>
      have he : a.1 = b.1 := keyLt_conn hab2 hab
      rw [he] at hca
      rw [hbc] at hca
      cases hca

theorem entryLe_total : ∀ (a b : String × Value), (entryLe a b || entryLe b a) = true := by
  intro a b
  simp only [entryLe, Bool.or_eq_true, Bool.not_eq_true']
  cases hab : keyLt b.1 a.1 with
  | false => exact Or.inl rfl
  | true => exact Or.inr (keyLt_asymm hab)

theorem canonEntries_keys : ∀ (m : List (String × Value)),
    (Value.canonEntries m).map Prod.fst = m.map Prod.fst := by
  intro m
  induction m with
  | nil => rfl
  | cons e rest ih =>
    obtain ⟨k, v⟩ := e
    simp only [Value.canonEntries, List.map_cons, ih]

theorem keysNodupB_iff : ∀ (l : List String), keysNodupB l = true ↔ l.Nodup := by
  intro l
  induction l with
  | nil => simp [keysNodupB]
  | cons k rest ih =>
    simp only [keysNodupB, Bool.and_eq_true, List.nodup_cons, ih]
    constructor
    · rintro ⟨h1, h2⟩
      refine ⟨?_, h2⟩
      intro hm
      rw [show rest.contains k = true by simpa using hm] at h1
      cases h1
    · rintro ⟨h1, h2⟩
      refine ⟨?_, h2⟩
      cases hc : rest.contains k with
      | false => rfl
      | true => exact absurd (by simpa using hc) h1

/-- Two `entryLe`-sorted entry lists that are permutations of each other and
have duplicate-free keys are equal. -/
theorem sorted_perm_entries_eq : ∀ {l1 l2 : List (String × Value)},
    List.Pairwise (fun a b => entryLe a b = true) l1 →
    List.Pairwise (fun a b => entryLe a b = true) l2 →
    (l1.map Prod.fst).Nodup → l1.Perm l2 → l1 = l2 := by
  intro l1
  induction l1 with
  | nil =>
    intro l2 _ _ _ hp
    exact List.Perm.nil_eq hp
  | cons e1 r1 ih =>
    intro l2 hp1 hp2 hnd hp
    cases l2 with
    | nil => exact absurd hp.symm (by simp)
    | cons e2 r2 =>
      obtain ⟨hall1, hp1r⟩ := List.pairwise_cons.mp hp1
      obtain ⟨hall2, hp2r⟩ := List.pairwise_cons.mp hp2
      simp only [List.map_cons, List.nodup_cons] at hnd
      have he : e1 = e2 := by
        have hm2 : e2 ∈ e1 :: r1 := hp.mem_iff.mpr (List.mem_cons_self _ _)
        have hm1 : e1 ∈ e2 :: r2 := hp.mem_iff.mp (List.mem_cons_self _ _)
        rcases List.mem_cons.mp hm2 with h | h
        · exact h.symm
        · rcases List.mem_cons.mp hm1 with h2 | h2
          · exact h2
          · have hle12 : entryLe e1 e2 = true := hall1 e2 h
            have hle21 : entryLe e2 e1 = true := hall2 e1 h2
            simp only [entryLe, Bool.not_eq_true'] at hle12 hle21
            have hkeq : e1.1 = e2.1 := keyLt_conn hle21 hle12
            exfalso
            exact hnd.1 (hkeq ▸ List.mem_map_of_mem Prod.fst h)
      subst he
      have hr : r1.Perm r2 := hp.cons_inv
      rw [ih hp1r hp2r hnd.2 hr]

/-- Two values with the same content: equal at every node, except that the
entries of corresponding map nodes may appear in different orders (as two
`HashMap`s with the same content may iterate in different orders). -/
inductive EntryPerm : Value → Value → Prop where
  | primitive (p : Primitive) : EntryPerm (.primitive p) (.primitive p)
  | text (t : List Char) : EntryPerm (.text t) (.text t)
  | seqNil : EntryPerm (.sequence []) (.sequence [])
  | seqCons {v v' : Value} {l l' : List Value} : EntryPerm v v' →
      EntryPerm (.sequence l) (.sequence l') →
      EntryPerm (.sequence (v :: l)) (.sequence (v' :: l'))
  | mapNil (mk : MapKind) : EntryPerm (.map [] mk) (.map [] mk)
  | mapCons (k : String) {v v' : Value} {l l' : List (String × Value)} {mk : MapKind} :
      EntryPerm v v' → EntryPerm (.map l mk) (.map l' mk) →
      EntryPerm (.map ((k, v) :: l) mk) (.map ((k, v') :: l') mk)
  | mapSwap (e1 e2 : String × Value) (l : List (String × Value)) (mk : MapKind) :
      EntryPerm (.map (e1 :: e2 :: l) mk) (.map (e2 :: e1 :: l) mk)
  | mapTrans {l1 l2 l3 : List (String × Value)} {mk : MapKind} :
      EntryPerm (.map l1 mk) (.map l2 mk) → EntryPerm (.map l2 mk) (.map l3 mk) →
      EntryPerm (.map l1 mk) (.map l3 mk)

/-- Content-equal values have the same canonical representative (and content
equality preserves the distinct-keys invariant). -/
theorem canon_eq_of_entryPerm : ∀ {v v' : Value}, EntryPerm v v' →
    Value.keysDistinct v = true →
    Value.canon v = Value.canon v' ∧ Value.keysDistinct v' = true := by
  intro v v' h
  induction h with
  | primitive p => intro h; exact ⟨rfl, h⟩
  | text t => intro h; exact ⟨rfl, h⟩
  | seqNil => intro h; exact ⟨rfl, h⟩
  | seqCons hv hl ihv ihl =>
    rename_i w w2 l l2
    intro hdk
    simp only [Value.keysDistinct, Value.keysDistinctList, Bool.and_eq_true] at hdk
    obtain ⟨h1, h2⟩ := hdk
    obtain ⟨hc1, hkd1⟩ := ihv h1
    obtain ⟨hc2, hkd2⟩ := ihl (by simpa [Value.keysDistinct] using h2)
    have hc2l : Value.canonList l = Value.canonList l2 := by
      simpa [Value.canon, Value.sequence.injEq] using hc2
    constructor
    · simp only [Value.canon, Value.canonList, Value.sequence.injEq]
      rw [hc1, hc2l]
    · simp only [Value.keysDistinct, Value.keysDistinctList, Bool.and_eq_true]
      exact ⟨hkd1, by simpa [Value.keysDistinct] using hkd2⟩
  | mapNil mk => intro h; exact ⟨rfl, h⟩
  | mapCons k hv hl ihv ihl =>
    rename_i w w2 l l2 mk
    intro hdk
    simp only [Value.keysDistinct, Bool.and_eq_true, List.map_cons, keysNodupB,
      Value.keysDistinctEntries] at hdk
    obtain ⟨⟨hnc, hnd⟩, hkdv, hkde⟩ := hdk
    obtain ⟨hcv, hkdv2⟩ := ihv hkdv
    obtain ⟨hcl, hkdl2⟩ := ihl (by
      simp only [Value.keysDistinct, Bool.and_eq_true]
      exact ⟨hnd, hkde⟩)
    have hms : (Value.canonEntries l).mergeSort entryLe =
        (Value.canonEntries l2).mergeSort entryLe := by
      simpa [Value.canon, Value.map.injEq] using hcl
    have hAB : (Value.canonEntries l).Perm (Value.canonEntries l2) :=
      ((List.mergeSort_perm _ entryLe).symm.trans (hms ▸ List.mergeSort_perm _ entryLe))
    have hknotmem : k ∉ List.map Prod.fst l := by
      intro hm
      rw [show List.contains (List.map Prod.fst l) k = true by simpa using hm] at hnc
      cases hnc
    have hndk : (k :: List.map Prod.fst l).Nodup :=
      List.nodup_cons.mpr ⟨hknotmem, (keysNodupB_iff _).mp hnd⟩
    simp only [Value.keysDistinct, Bool.and_eq_true] at hkdl2
    have hkeysperm : (List.map Prod.fst l).Perm (List.map Prod.fst l2) := by
      have := hAB.map Prod.fst
      rwa [canonEntries_keys, canonEntries_keys] at this
    constructor
    · simp only [Value.canon, Value.canonEntries]
      congr 1
      rw [hcv]
      have hperm : ((k, Value.canon w2) :: Value.canonEntries l).Perm
          ((k, Value.canon w2) :: Value.canonEntries l2) := hAB.cons _
      apply sorted_perm_entries_eq
        (List.sorted_mergeSort entryLe_trans entryLe_total _)
        (List.sorted_mergeSort entryLe_trans entryLe_total _)
      · have hkk : (((k, Value.canon w2) :: Value.canonEntries l).map Prod.fst).Nodup := by
          simp only [List.map_cons, canonEntries_keys]
          exact hndk
        exact (((List.mergeSort_perm _ entryLe).map Prod.fst).nodup_iff).mpr hkk
      · exact (List.mergeSort_perm _ entryLe).trans
          (hperm.trans (List.mergeSort_perm _ entryLe).symm)
    · simp only [Value.keysDistinct, Bool.and_eq_true, List.map_cons, keysNodupB,
        Value.keysDistinctEntries]
      refine ⟨⟨?_, (keysNodupB_iff _).mpr (hkeysperm.nodup_iff.mp ((keysNodupB_iff _).mp hnd))⟩,
        hkdv2, hkdl2.2⟩
      cases hc : List.contains (List.map Prod.fst l2) k with
      | false => rfl
      | true =>
        exfalso
        exact hknotmem (hkeysperm.mem_iff.mpr (by simpa using hc))
  | mapSwap e1 e2 l mk =>
    intro hdk
    obtain ⟨k1, w1⟩ := e1
    obtain ⟨k2, w2⟩ := e2
    have hswapperm : (List.map Prod.fst ((k1, w1) :: (k2, w2) :: l)).Perm
        (List.map Prod.fst ((k2, w2) :: (k1, w1) :: l)) := by
      simp only [List.map_cons]
      exact List.Perm.swap _ _ _
    simp only [Value.keysDistinct, Bool.and_eq_true] at hdk
    obtain ⟨hnd, hkde⟩ := hdk
    constructor
    · simp only [Value.canon, Value.canonEntries]
      congr 1
      apply sorted_perm_entries_eq
        (List.sorted_mergeSort entryLe_trans entryLe_total _)
        (List.sorted_mergeSort entryLe_trans entryLe_total _)
      · have hkk : (((k1, Value.canon w1) :: (k2, Value.canon w2) ::
            Value.canonEntries l).map Prod.fst).Nodup := by
          simp only [List.map_cons, canonEntries_keys]
          have := (keysNodupB_iff _).mp hnd
          simpa using this
        exact (((List.mergeSort_perm _ entryLe).map Prod.fst).nodup_iff).mpr hkk
      · refine (List.mergeSort_perm _ entryLe).trans
          (List.Perm.trans ?_ (List.mergeSort_perm _ entryLe).symm)
        exact List.Perm.swap _ _ _
    · simp only [Value.keysDistinct, Bool.and_eq_true]
      constructor
      · exact (keysNodupB_iff _).mpr (hswapperm.nodup_iff.mp ((keysNodupB_iff _).mp hnd))
      · simp only [Value.keysDistinctEntries, Bool.and_eq_true] at hkde ⊢
        exact ⟨hkde.2.1, hkde.1, hkde.2.2⟩
  | mapTrans h1 h2 ih1 ih2 =>
    intro hdk
    obtain ⟨hc1, hk1⟩ := ih1 hdk
    obtain ⟨hc2, hk2⟩ := ih2 hk1
    exact ⟨hc1.trans hc2, hk2⟩

/-- `impl ToAutomerge for Vec<char>` (`automergeable-core/src/to.rs` lines
10-14): a char vector converts to a `Text` value holding the same chars, one
element per Unicode code point. -/
def vecCharToAutomerge (cs : List Char) : Value := Value.text cs

/-- `impl<T> ToAutomerge for Option<T>` (`automergeable-core/src/to.rs` lines
76-87): `Some(v)` converts to the conversion of `v`, `None` to the `Null`
scalar. -/
def optionToAutomerge {α : Type} (toA : α → Value) : Option α → Value
  | some v => toA v
  | none => Value.primitive Primitive.null

/-- `impl ToAutomerge for time::SystemTime` (`automergeable-core/src/to.rs`
lines 89-96).  The time is modelled as whole nanoseconds since the UNIX
epoch (negative means before the epoch); `none` models a panic.
`duration_since(UNIX_EPOCH)` is unwrapped with `expect` (panics before the
epoch); the whole-second count is converted `u64 -> i64` with
`try_into().unwrap()` (panics when it exceeds the signed 64-bit range);
`as_secs` discards sub-second precision. -/
def systemTimeToAutomerge (nanos : Int) : Option Value :=
  if nanos < 0 then none
  else
    if nanos.toNat / 1000000000 < 2 ^ 63 then
      some (.primitive (.timestamp (Int.ofNat (nanos.toNat / 1000000000))))
    else none

/-- `true` exactly for counter scalars. -/
def Primitive.isCounter : Primitive → Bool
  | .counter _ => true
  | _ => false

/-- `true` when the two values differ in variant kind, or are both maps with
different kind tags. -/
def kindMismatch : Value → Value → Bool
  | .map _ mk1, .map _ mk2 => decide (mk1 ≠ mk2)
  | .sequence _, .sequence _ => false
  | .text _, .text _ => false
  | .primitive _, .primitive _ => false
  | _, _ => true

/-- Claim C1: for every pair of well-formed value trees that are both maps of
the Generic (`Map`) kind at the top level, applying the edit script returned
by `diff(v1, v2)` in order to a document holding `v1` produces a document
whose value is deep-equal to `v2` (on canonical representatives, structural
equality). -/
theorem claim_c1_replay_correct : ∀ (m1 m2 : List (String × Value)) (ops : List Op),
    Value.wf (.map m1 .map) = true → Value.wf (.map m2 .map) = true →
    diff (.map m1 .map) (.map m2 .map) [] = Except.ok ops →
    applyOps (.map m1 .map) ops = some (.map m2 .map) := by
  intro m1 m2 ops h1 h2 hd
  exact diff_replay _ _ h1 h2 ops hd

theorem claim_c1_witness :
    Value.wf (.map [("a", .primitive (.int 1)), ("b", .text ['x'])] .map) = true ∧
    Value.wf (.map [("a", .primitive (.int 2)), ("c", .primitive .null)] .map) = true ∧
    applyOps (.map [("a", .primitive (.int 1)), ("b", .text ['x'])] .map)
        [Op.removeMapKey [] "b", Op.setScalar [PathElem.key "a"] (.primitive (.int 2)),
          Op.setMapValue [] "c" (.primitive .null)] =
      some (.map [("a", .primitive (.int 2)), ("c", .primitive .null)] .map) :=
  ⟨rfl, rfl,
    claim_c1_replay_correct [("a", .primitive (.int 1)), ("b", .text ['x'])]
      [("a", .primitive (.int 2)), ("c", .primitive .null)]
      [Op.removeMapKey [] "b", Op.setScalar [PathElem.key "a"] (.primitive (.int 2)),
        Op.setMapValue [] "c" (.primitive .null)] rfl rfl rfl⟩

/-- Counterexample to claim C2 as stated: for the value `Scalar(F64(NaN))`
(which is IEEE-unequal to itself, exactly as in the code's `PartialEq`),
`diff(v, v)` is not the empty edit script. -/
theorem claim_c2_counterexample :
    diff (.primitive (.f64 .nan)) (.primitive (.f64 .nan)) [] ≠ Except.ok [] := by
  intro h
  rw [show diff (.primitive (.f64 .nan)) (.primitive (.f64 .nan)) [] =
      Except.ok [Op.setScalar [] (.primitive (.f64 .nan))] from rfl] at h
  cases h

/-- Claim C2 amended: for every value `v` containing no NaN float,
`diff(v, v)` returns the empty edit script; more generally, whenever `old`
and `new` are deep-equal by the code's equality (`veq`, IEEE on floats),
`diff(old, new)` returns the empty list of operations. -/
theorem claim_c2_amended : ∀ (v old new : Value) (p q : DiffPath),
    (Value.noNaN v = true → diff v v p = Except.ok []) ∧
    (Value.veq old new = true → diff old new q = Except.ok []) := by
  intro v old new p q
  constructor
  · intro h
    rw [diff, diffR_of_veq v v (Value.veq_refl v h)]
    rfl
  · intro h
    rw [diff, diffR_of_veq old new h]
    rfl

theorem claim_c2_witness :
    Value.noNaN (.map [("k", .primitive (.f64 (.fin 3)))] .map) = true ∧
    diff (.map [("k", .primitive (.f64 (.fin 3)))] .map)
      (.map [("k", .primitive (.f64 (.fin 3)))] .map) [] = Except.ok [] :=
  ⟨rfl, (claim_c2_amended (.map [("k", .primitive (.f64 (.fin 3)))] .map)
    (.primitive .null) (.primitive .null) [] []).1 rfl⟩

/-- Counterexample to claim C3 as stated: for the counter pair `(0, 0)` the
diff emits no operation at all (the equality fast path), not exactly one
`IncrementCounter` with delta `0 - 0`. -/
theorem claim_c3_counterexample :
    ¬ ∃ d : Int, diff (.primitive (.counter 0)) (.primitive (.counter 0)) [] =
        Except.ok [Op.incrementCounter [] d] := by
  rintro ⟨d, h⟩
  rw [show diff (.primitive (.counter 0)) (.primitive (.counter 0)) [] =
      Except.ok [] from rfl] at h
  cases h

/-- Claim C3 amended: for counters with distinct values `a ≠ b`, diff emits
exactly one operation, an `IncrementCounter` with delta `b - a` and never a
`SetScalar`; for `a = b` it emits the empty script; every transition between
a counter and a non-counter scalar kind (in either direction) emits a single
full replacement. -/
theorem claim_c3_amended : ∀ (a b : Int) (q : Primitive) (p : DiffPath),
    (a ≠ b → diff (.primitive (.counter a)) (.primitive (.counter b)) p =
        Except.ok [Op.incrementCounter p (b - a)]) ∧
    (a = b → diff (.primitive (.counter a)) (.primitive (.counter b)) p = Except.ok []) ∧
    (Primitive.isCounter q = false →
      diff (.primitive (.counter a)) (.primitive q) p =
          Except.ok [Op.setScalar p (.primitive q)] ∧
        diff (.primitive q) (.primitive (.counter a)) p =
          Except.ok [Op.setScalar p (.primitive (.counter a))]) := by
  intro a b q p
  refine ⟨?_, ?_, ?_⟩
  · intro hne
    have hveqf : Value.veq (.primitive (.counter a)) (.primitive (.counter b)) = false := by
      simp [Value.veq, Primitive.peq, hne]
    simp [diff, diffR, hveqf, primDiff, prependPath]
  · intro he
    subst he
    rw [diff, diffR_of_veq _ _ (by simp [Value.veq, Primitive.peq])]
    rfl
  · intro hq
    constructor
    · have hveqf : Value.veq (.primitive (.counter a)) (.primitive q) = false := by
        cases q <;> simp [Value.veq, Primitive.peq] <;> simp [Primitive.isCounter] at hq
      cases q <;> simp [Primitive.isCounter] at hq <;>
        simp [diff, diffR, hveqf, primDiff, prependPath]
    · have hveqf : Value.veq (.primitive q) (.primitive (.counter a)) = false := by
        cases q <;> simp [Value.veq, Primitive.peq] <;> simp [Primitive.isCounter] at hq
      cases q <;> simp [Primitive.isCounter] at hq <;>
        simp [diff, diffR, hveqf, primDiff, prependPath]

theorem claim_c3_witness :
    ((0 : Int) ≠ (4 : Int)) ∧
    diff (.primitive (.counter 0)) (.primitive (.counter 4)) [PathElem.key "c"] =
      Except.ok [Op.incrementCounter [PathElem.key "c"] 4] ∧
    Primitive.isCounter .null = false ∧
    diff (.primitive (.counter 0)) (.primitive .null) [] =
      Except.ok [Op.setScalar [] (.primitive .null)] :=
  ⟨by decide,
    by
      have h := (claim_c3_amended 0 4 .null [PathElem.key "c"]).1 (by decide)
      simpa using h,
    rfl,
    ((claim_c3_amended 0 4 .null []).2.2 rfl).1⟩

/-- Claim C4: whenever the two values differ in variant kind, or are both
maps whose kind tags differ (Generic vs Table), diff emits exactly one
whole-value replacement at the target path and no partial operations. -/
theorem claim_c4_type_transition : ∀ (v1 v2 : Value) (p : DiffPath),
    kindMismatch v1 v2 = true →
    diff v1 v2 p = Except.ok [Op.setScalar p v2] := by
  intro v1 v2 p h
  have hveqf : Value.veq v1 v2 = false := by
    cases v1 <;> cases v2 <;> simp_all [kindMismatch, Value.veq, beq_iff_eq]
  cases v1 <;> cases v2 <;> simp only [kindMismatch] at h <;>
    simp [diff, diffR, hveqf, prependPath] <;>
    simp_all [prependPath, decide_eq_true_eq]

theorem claim_c4_witness :
    kindMismatch (.map [] .map) (.map [] .table) = true ∧
    diff (.map [] .map) (.map [] .table) [PathElem.index 2] =
      Except.ok [Op.setScalar [PathElem.index 2] (.map [] .table)] ∧
    kindMismatch (.text ['a']) (.sequence []) = true ∧
    diff (.text ['a']) (.sequence []) [] =
      Except.ok [Op.setScalar [] (.sequence [])] :=
  ⟨by decide,
    claim_c4_type_transition (.map [] .map) (.map [] .table) [PathElem.index 2] (by decide),
    rfl,
    claim_c4_type_transition (.text ['a']) (.sequence []) [] rfl⟩

/-- Claim C5: `diff(Scalar(F64(NaN)), Scalar(F64(NaN)))` is not treated as a
no-op: IEEE equality makes NaN unequal to itself, and the (total,
terminating) diff emits a single `SetScalar` replacement. -/
theorem claim_c5_nan : diff (.primitive (.f64 .nan)) (.primitive (.f64 .nan)) [] =
    Except.ok [Op.setScalar [] (.primitive (.f64 .nan))] := rfl

/-- Counterexample to claim C6 as stated: text is NOT kept at grapheme-cluster
granularity.  The `Vec<char>` conversion stores the decomposed cluster
"e + U+0301" (é) as two separate text elements, and diffing that text against
plain "e" emits a `SetTextRange` whose range starts inside the cluster,
splitting it (it deletes just the combining accent). -/
theorem claim_c6_counterexample :
    vecCharToAutomerge ['e', Char.ofNat 769] = Value.text ['e', Char.ofNat 769] ∧
    diff (Value.text ['e', Char.ofNat 769]) (Value.text ['e']) [] =
      Except.ok [Op.setTextRange [] 1 2 []] :=
  ⟨rfl, rfl⟩

/-- Claim C6 amended: text is represented, compared and diffed at the
granularity of the elements of the `Text` vector, which are Unicode code
points (`char`s, per `impl ToAutomerge for Vec<char>`), not grapheme
clusters; diffing the 4-char text "café" (composed é) against "cafe"
operates on those chars and the emitted script replays to the exact new char
sequence. -/
theorem claim_c6_amended : ∀ (cs t1 t2 : List Char) (ops : List Op),
    vecCharToAutomerge cs = Value.text cs ∧
    (diff (.text t1) (.text t2) [] = Except.ok ops →
      applyOps (.text t1) ops = some (.text t2)) := by
  intro cs t1 t2 ops
  refine ⟨rfl, ?_⟩
  intro hd
  exact diff_replay (.text t1) (.text t2) rfl rfl ops hd

theorem claim_c6_witness :
    diff (.text ['c', 'a', 'f', Char.ofNat 233]) (.text ['c', 'a', 'f', 'e']) [] =
      Except.ok [Op.setTextRange [] 3 4 ['e']] ∧
    applyOps (.text ['c', 'a', 'f', Char.ofNat 233])
        [Op.setTextRange [] 3 4 ['e']] = some (.text ['c', 'a', 'f', 'e']) :=
  ⟨rfl,
    (claim_c6_amended [] ['c', 'a', 'f', Char.ofNat 233] ['c', 'a', 'f', 'e']
      [Op.setTextRange [] 3 4 ['e']]).2 rfl⟩

/-- Claim C7: diff fails only with `DiffError.Incompatible`, and only for
inputs the Replication Engine cannot express (a differing raw cursor pair);
on cursor-free values it never fails (and, being a total function of the
model, never panics); the `Except` result means a failing diff returns no
partial edit script. -/
theorem claim_c7_errors : ∀ (old new : Value) (p : DiffPath),
    (∀ e, diff old new p = Except.error e → e = DiffError.incompatible) ∧
    (Value.cursorFree old = true → Value.cursorFree new = true →
      ∃ ops, diff old new p = Except.ok ops) := by
  intro old new p
  exact ⟨fun e he => diff_error_incompatible old new p e he,
    fun h1 h2 => diff_ok_of_cursorFree old new p h1 h2⟩

theorem claim_c7_witness :
    Value.cursorFree (.map [("a", .primitive (.int 1))] .map) = true ∧
    Value.cursorFree (.sequence [.text ['z']]) = true ∧
    (∃ ops, diff (.map [("a", .primitive (.int 1))] .map) (.sequence [.text ['z']]) [] =
      Except.ok ops) :=
  ⟨rfl, rfl, (claim_c7_errors (.map [("a", .primitive (.int 1))] .map)
    (.sequence [.text ['z']]) []).2 rfl rfl⟩

/-- Claim C8: diff is deterministic - for a fixed pair of input trees it is a
pure function, and its output depends only on the content of the two trees:
two representations of the same unordered map content (related by
`EntryPerm`) canonicalize identically, so the modelled invocation (which
reads maps in the deterministic canonical key order) returns the identical
edit script, operations in the same order. -/
theorem claim_c8_deterministic : ∀ (v1 v1' v2 v2' : Value) (p : DiffPath),
    EntryPerm v1 v1' → EntryPerm v2 v2' →
    Value.keysDistinct v1 = true → Value.keysDistinct v2 = true →
    diff (Value.canon v1) (Value.canon v2) p = diff (Value.canon v1') (Value.canon v2') p := by
  intro v1 v1' v2 v2' p h1 h2 hk1 hk2
  rw [(canon_eq_of_entryPerm h1 hk1).1, (canon_eq_of_entryPerm h2 hk2).1]

theorem claim_c8_witness :
    Value.keysDistinct (.map [("a", .primitive .null), ("b", .primitive (.int 1))] .map) = true ∧
    Value.keysDistinct (.primitive (.int 7)) = true ∧
    diff (Value.canon (.map [("a", .primitive .null), ("b", .primitive (.int 1))] .map))
        (Value.canon (.primitive (.int 7))) [] =
      diff (Value.canon (.map [("b", .primitive (.int 1)), ("a", .primitive .null)] .map))
        (Value.canon (.primitive (.int 7))) [] :=
  ⟨rfl, rfl,
    claim_c8_deterministic _ _ _ _ []
      (EntryPerm.mapSwap ("a", .primitive .null) ("b", .primitive (.int 1)) [] .map)
      (EntryPerm.primitive _) rfl rfl⟩

/-- Claim C9: `ToAutomerge for SystemTime` is partial: it panics (models to
`none`) for every time strictly before the UNIX epoch, and also when the
whole-second count does not fit the signed 64-bit timestamp; otherwise it
returns a `Timestamp` scalar holding whole seconds since the epoch,
discarding sub-second precision. -/
theorem claim_c9_systemtime : ∀ (nanos : Int),
    (nanos < 0 → systemTimeToAutomerge nanos = none) ∧
    (0 ≤ nanos → 2 ^ 63 ≤ nanos.toNat / 1000000000 →
      systemTimeToAutomerge nanos = none) ∧
    (0 ≤ nanos → nanos.toNat / 1000000000 < 2 ^ 63 →
      systemTimeToAutomerge nanos =
        some (.primitive (.timestamp (Int.ofNat (nanos.toNat / 1000000000))))) := by
  intro nanos
  refine ⟨?_, ?_, ?_⟩
  · intro h
    rw [systemTimeToAutomerge, if_pos h]
  · intro h1 h2
    rw [systemTimeToAutomerge, if_neg (not_lt.mpr h1), if_neg (not_lt.mpr h2)]
  · intro h1 h2
    rw [systemTimeToAutomerge, if_neg (not_lt.mpr h1), if_pos h2]

theorem claim_c9_witness :
    ((-1 : Int) < 0 ∧ systemTimeToAutomerge (-1) = none) ∧
    ((0 : Int) ≤ 9223372036854775808000000000 ∧
      2 ^ 63 ≤ (9223372036854775808000000000 : Int).toNat / 1000000000 ∧
      systemTimeToAutomerge 9223372036854775808000000000 = none) ∧
    ((0 : Int) ≤ 1500000000 ∧ (1500000000 : Int).toNat / 1000000000 < 2 ^ 63 ∧
      systemTimeToAutomerge 1500000000 =
        some (.primitive (.timestamp 1))) :=
  ⟨⟨by decide, (claim_c9_systemtime (-1)).1 (by decide)⟩,
    ⟨by decide, by decide,
      (claim_c9_systemtime 9223372036854775808000000000).2.1 (by decide) (by decide)⟩,
    ⟨by decide, by decide, by
      have h := (claim_c9_systemtime 1500000000).2.2 (by decide) (by decide)
      simpa using h⟩⟩

/-- Claim C10: `Option<T>::to_automerge` returns the `Null` scalar for `None`
and the inner conversion for `Some(v)`; consequently any `Some(x)` whose
inner conversion yields `Null` (for example a nested `None`) produces exactly
the same value as `None`, so the conversion is not injective on nested
options. -/
theorem claim_c10_option : ∀ {α : Type} (toA : α → Value) (x : α),
    optionToAutomerge toA none = Value.primitive Primitive.null ∧
    optionToAutomerge toA (some x) = toA x ∧
    (toA x = Value.primitive Primitive.null →
      optionToAutomerge toA (some x) = optionToAutomerge toA none) ∧
    optionToAutomerge (optionToAutomerge toA) (some none) =
      optionToAutomerge (optionToAutomerge toA) none := by
  intro α toA x
  refine ⟨rfl, rfl, ?_, rfl⟩
  intro h
  simp [optionToAutomerge, h]

theorem claim_c10_witness :
    ((fun (_ : Nat) => Value.primitive Primitive.null) 0 = Value.primitive Primitive.null) ∧
    optionToAutomerge (fun (_ : Nat) => Value.primitive Primitive.null) (some 0) =
      optionToAutomerge (fun (_ : Nat) => Value.primitive Primitive.null) none :=
  ⟨rfl, (claim_c10_option (fun (_ : Nat) => Value.primitive Primitive.null) 0).2.2.1 rfl⟩
